import Mathlib

/-!
# Index generation (`Source/Core/VideoCommon/IndexGenerator.cpp`)

A shallow embedding of the primitive expanders and of the `IndexGenerator`
session object, followed by the properties established about them.

Modelling conventions
* `u32` values are natural numbers reduced modulo `2^32`, `u16` values modulo `2^16`.
* A `u16*` is a natural number (an address counted in `u16` elements); the
  memory the pointers refer to is a function from addresses to `u16` values.
* A C++ loop is run by `whileLoop` with a bound on the number of iterations
  (`fuel`); the result is `none` when the bound is reached before the loop exits.
-/

/-! ## Machine arithmetic and memory -/

/-- Conversion of an arithmetic result to `u32`. -/
def u32 (x : Nat) : Nat := x % 4294967296

/-- Conversion of an arithmetic result to `u16`. -/
def u16 (x : Nat) : Nat := x % 65536

/-- Subtraction `a - b` on `u32` operands. -/
def u32sub (a b : Nat) : Nat := (u32 a + 4294967296 - u32 b) % 4294967296

/-- Memory of `u16` elements, addressed in units of one element. -/
abbrev Mem := Nat → Nat

/-- The store `*p = v` for a `u16* p`. -/
def store (mem : Mem) (p v : Nat) : Mem := fun a => if a = p then v else mem a

/-- Run `while (cond s) s = body s;` for at most `fuel` evaluations of the condition. -/
def whileLoop {σ : Type} (cond : σ → Bool) (body : σ → σ) : Nat → σ → Option σ
  | 0, _ => none
  | fuel + 1, s => if cond s then whileLoop cond body fuel (body s) else some s

/-! ## Graphics state read by the expanders -/

/-- Modelled from the spec: the cull mode held in `bpmem.genMode.cullmode`. Its type is
declared in `BPMemory.h`, which is not part of the sources at hand; the expanders only
compare it with `CullMode::Front` (front-face culling, counter-clockwise winding). -/
inductive CullMode where
  | None
  | Back
  | Front
  | All
  deriving DecidableEq

/-- Modelled from the spec: the eight draw primitives of `OpcodeDecoder`
(`OpcodeDecoding.h` is not part of the sources at hand) that index `m_primitive_table`. -/
inductive Primitive where
  | GX_DRAW_QUADS
  | GX_DRAW_QUADS_2
  | GX_DRAW_TRIANGLES
  | GX_DRAW_TRIANGLE_STRIP
  | GX_DRAW_TRIANGLE_FAN
  | GX_DRAW_LINES
  | GX_DRAW_LINE_STRIP
  | GX_DRAW_POINTS
  deriving DecidableEq

/-! ## The expanders -/

/-- Local state of an expander loop: the counter `i`, the memory and `index_ptr`. -/
structure LoopState where
  i : Nat
  mem : Mem
  index_ptr : Nat

/-- The statement `*index_ptr++ = value;` where `value` is a `u32` expression. -/
def LoopState.put (s : LoopState) (value : Nat) : LoopState :=
  { s with mem := store s.mem s.index_ptr (u16 (u32 value)), index_ptr := s.index_ptr + 1 }

/-- The value returned by an expander: the memory it leaves and the returned `index_ptr`. -/
def LoopState.result (s : LoopState) : Mem × Nat := (s.mem, s.index_ptr)

/-- The local `bool ccw = bpmem.genMode.cullmode == CullMode::Front;` of the expanders. -/
def ccw (cullmode : CullMode) : Bool := cullmode == CullMode.Front

/-- Body of the `for` loop of `AddList`, followed by its increment `i += 3`. -/
def AddList.body (index v1 v2 : Nat) (s : LoopState) : LoopState :=
  let s := s.put (index + s.i)
  let s := s.put (index + s.i + v1)
  let s := s.put (index + s.i + v2)
  { s with i := u32 (s.i + 3) }

/-- Expander `AddList` (triangle lists): `for (u32 i = 0; i < num_verts; i += 3)`. -/
def AddList (fuel : Nat) (cullmode : CullMode) (mem : Mem) (index_ptr num_verts index : Nat) :
    Option (Mem × Nat) :=
  let v1 := if ccw cullmode then 2 else 1
  let v2 := if ccw cullmode then 1 else 2
  (whileLoop (fun s : LoopState => decide (s.i < num_verts)) (AddList.body index v1 v2)
    fuel ⟨0, mem, index_ptr⟩).map LoopState.result

/-- Local state of the `AddStrip` loop, which also carries `wind`. -/
structure StripState where
  i : Nat
  wind : Nat
  mem : Mem
  index_ptr : Nat

/-- The statement `*index_ptr++ = value;` inside `AddStrip`. -/
def StripState.put (s : StripState) (value : Nat) : StripState :=
  { s with mem := store s.mem s.index_ptr (u16 (u32 value)), index_ptr := s.index_ptr + 1 }

/-- Body of the `for` loop of `AddStrip`, followed by its increment `++i`. -/
def AddStrip.body (index : Nat) (s : StripState) : StripState :=
  let s := s.put (index + s.i)
  let s := s.put (index + s.i + s.wind)
  let s := { s with wind := s.wind ^^^ 3 }
  let s := s.put (index + s.i + s.wind)
  { s with i := u32 (s.i + 1) }

/-- Expander `AddStrip` (triangle strips): `for (u32 i = 0; i < num_verts - 2; ++i)`. -/
def AddStrip (fuel : Nat) (cullmode : CullMode) (mem : Mem) (index_ptr num_verts index : Nat) :
    Option (Mem × Nat) :=
  let wind := if ccw cullmode then 2 else 1
  (whileLoop (fun s : StripState => decide (s.i < u32sub num_verts 2)) (AddStrip.body index)
    fuel ⟨0, wind, mem, index_ptr⟩).map (fun s => (s.mem, s.index_ptr))

/-- Body of the `for` loop of `AddFan`, followed by its increment `++i`. -/
def AddFan.body (index v1 v2 : Nat) (s : LoopState) : LoopState :=
  let s := s.put index
  let s := s.put (index + s.i + v1)
  let s := s.put (index + s.i + v2)
  { s with i := u32 (s.i + 1) }

/-- Expander `AddFan` (triangle fans): `num_verts = num_verts < 3 ? 1 : num_verts - 2;` then
`for (u32 i = 0; i < num_verts; ++i)`. -/
def AddFan (fuel : Nat) (cullmode : CullMode) (mem : Mem) (index_ptr num_verts index : Nat) :
    Option (Mem × Nat) :=
  let v1 := if ccw cullmode then 2 else 1
  let v2 := if ccw cullmode then 1 else 2
  let num_verts := if num_verts < 3 then 1 else u32sub num_verts 2
  (whileLoop (fun s : LoopState => decide (s.i < num_verts)) (AddFan.body index v1 v2)
    fuel ⟨0, mem, index_ptr⟩).map LoopState.result

/-- Body of the `for` loop of `AddQuads`, followed by its increment `i += 4`. -/
def AddQuads.body (index v1 v2 v3 v4 : Nat) (s : LoopState) : LoopState :=
  let s := s.put (index + s.i)
  let s := s.put (index + s.i + v1)
  let s := s.put (index + s.i + v2)
  let s := s.put (index + s.i)
  let s := s.put (index + s.i + v3)
  let s := s.put (index + s.i + v4)
  { s with i := u32 (s.i + 4) }

/-- The statements of `AddQuads` after its loop: `if (num_verts & 3)` one more triangle. -/
def AddQuads.tail (num_verts index v1 v2 : Nat) (s : LoopState) : LoopState :=
  if num_verts &&& 3 ≠ 0 then
    let s := s.put (index + s.i)
    let s := s.put (index + s.i + v1)
    let s := s.put (index + s.i + v2)
    s
  else s

/-- Expander `AddQuads`: `for (; i < (num_verts & ~3); i += 4)`, where `~3` is the `u32` value
`0xFFFFFFFC`, then the statements after the loop. -/
def AddQuads (fuel : Nat) (cullmode : CullMode) (mem : Mem) (index_ptr num_verts index : Nat) :
    Option (Mem × Nat) :=
  let v1 := if ccw cullmode then 2 else 1
  let v2 := if ccw cullmode then 1 else 2
  let v3 := if ccw cullmode then 3 else 2
  let v4 := if ccw cullmode then 2 else 3
  (whileLoop (fun s : LoopState => decide (s.i < num_verts &&& 4294967292))
    (AddQuads.body index v1 v2 v3 v4)
    fuel ⟨0, mem, index_ptr⟩).map
    (fun s => (AddQuads.tail num_verts index v1 v2 s).result)

/-- Expander `AddQuads_nonstandard`: logs a warning, then `AddQuads`. -/
def AddQuads_nonstandard (fuel : Nat) (cullmode : CullMode) (mem : Mem)
    (index_ptr num_verts index : Nat) : Option (Mem × Nat) :=
  AddQuads fuel cullmode mem index_ptr num_verts index

/-- Body of the `for` loop of `AddLineList`, followed by its increment `i += 2`. -/
def AddLineList.body (index : Nat) (s : LoopState) : LoopState :=
  let s := s.put (index + s.i)
  let s := s.put (index + s.i + 1)
  { s with i := u32 (s.i + 2) }

/-- Expander `AddLineList`: `for (u32 i = 0; i < num_verts; i += 2)`. -/
def AddLineList (fuel : Nat) (mem : Mem) (index_ptr num_verts index : Nat) :
    Option (Mem × Nat) :=
  (whileLoop (fun s : LoopState => decide (s.i < num_verts)) (AddLineList.body index)
    fuel ⟨0, mem, index_ptr⟩).map LoopState.result

/-- Body of the `for` loop of `AddLineStrip`, followed by its increment `++i`. -/
def AddLineStrip.body (index : Nat) (s : LoopState) : LoopState :=
  let s := s.put (index + s.i)
  let s := s.put (index + s.i + 1)
  { s with i := u32 (s.i + 1) }

/-- Expander `AddLineStrip`: `for (u32 i = 0; i < num_verts - 1; ++i)`. -/
def AddLineStrip (fuel : Nat) (mem : Mem) (index_ptr num_verts index : Nat) :
    Option (Mem × Nat) :=
  (whileLoop (fun s : LoopState => decide (s.i < u32sub num_verts 1)) (AddLineStrip.body index)
    fuel ⟨0, mem, index_ptr⟩).map LoopState.result

/-- Body of the `for` loop of `AddPoints`, followed by its increment `++i`. -/
def AddPoints.body (index : Nat) (s : LoopState) : LoopState :=
  let s := s.put (index + s.i)
  { s with i := u32 (s.i + 1) }

/-- Expander `AddPoints`: `for (u32 i = 0; i != num_verts; ++i)`. -/
def AddPoints (fuel : Nat) (mem : Mem) (index_ptr num_verts index : Nat) :
    Option (Mem × Nat) :=
  (whileLoop (fun s : LoopState => decide (s.i ≠ num_verts)) (AddPoints.body index)
    fuel ⟨0, mem, index_ptr⟩).map LoopState.result

/-! ## The session object -/

/-- The data members of `IndexGenerator` (pointers are addresses into the memory). -/
structure IndexGenerator where
  m_index_buffer_current : Nat
  m_base_index_ptr : Nat
  m_base_index : Nat

/-- The table `m_primitive_table` as `IndexGenerator::Init` fills it; the expanders read
the cull mode from the global `bpmem`, which is passed explicitly here. -/
def m_primitive_table (primitive : Primitive) (fuel : Nat) (cullmode : CullMode) (mem : Mem)
    (index_ptr num_verts index : Nat) : Option (Mem × Nat) :=
  match primitive with
  | .GX_DRAW_QUADS => AddQuads fuel cullmode mem index_ptr num_verts index
  | .GX_DRAW_QUADS_2 => AddQuads_nonstandard fuel cullmode mem index_ptr num_verts index
  | .GX_DRAW_TRIANGLES => AddList fuel cullmode mem index_ptr num_verts index
  | .GX_DRAW_TRIANGLE_STRIP => AddStrip fuel cullmode mem index_ptr num_verts index
  | .GX_DRAW_TRIANGLE_FAN => AddFan fuel cullmode mem index_ptr num_verts index
  | .GX_DRAW_LINES => AddLineList fuel mem index_ptr num_verts index
  | .GX_DRAW_LINE_STRIP => AddLineStrip fuel mem index_ptr num_verts index
  | .GX_DRAW_POINTS => AddPoints fuel mem index_ptr num_verts index

/-- Method `IndexGenerator::Start`. -/
def IndexGenerator.Start (g : IndexGenerator) (index_ptr : Nat) : IndexGenerator :=
  { g with m_index_buffer_current := index_ptr, m_base_index_ptr := index_ptr, m_base_index := 0 }

/-- Method `IndexGenerator::AddIndices`, acting on the memory and the object. -/
def IndexGenerator.AddIndices (fuel : Nat) (cullmode : CullMode) (primitive : Primitive)
    (num_vertices : Nat) (w : Mem × IndexGenerator) : Option (Mem × IndexGenerator) :=
  (m_primitive_table primitive fuel cullmode w.1 w.2.m_index_buffer_current num_vertices
    w.2.m_base_index).map
    (fun r => (r.1, { w.2 with m_index_buffer_current := r.2,
                               m_base_index := u32 (w.2.m_base_index + num_vertices) }))

/-- Method `IndexGenerator::AddExternalIndices`; `indices` is the address of the source array and
`memcpy` copies `num_indices` elements from it to `m_index_buffer_current`. -/
def IndexGenerator.AddExternalIndices (indices num_indices num_vertices : Nat)
    (w : Mem × IndexGenerator) : Mem × IndexGenerator :=
  (fun a =>
      if w.2.m_index_buffer_current ≤ a ∧ a < w.2.m_index_buffer_current + num_indices then
        w.1 (indices + (a - w.2.m_index_buffer_current))
      else w.1 a,
   { w.2 with m_index_buffer_current := w.2.m_index_buffer_current + num_indices,
              m_base_index := u32 (w.2.m_base_index + num_vertices) })

/-- Method `IndexGenerator::GetRemainingIndices`. -/
def IndexGenerator.GetRemainingIndices (g : IndexGenerator) : Nat :=
  u32sub 65534 g.m_base_index

/-- One call made on the generator during a session, with its arguments; an `AddIndices`
call carries the cull mode that is current when it is made. -/
inductive Call where
  | AddIndices (cullmode : CullMode) (primitive : Primitive) (num_vertices : Nat)
  | AddExternalIndices (indices num_indices num_vertices : Nat)

/-- The number of vertices a call passes. -/
def Call.vertices : Call → Nat
  | .AddIndices _ _ num_vertices => num_vertices
  | .AddExternalIndices _ _ num_vertices => num_vertices

/-- Perform one call. -/
def Call.run (fuel : Nat) (w : Mem × IndexGenerator) : Call → Option (Mem × IndexGenerator)
  | .AddIndices cullmode primitive num_vertices =>
      IndexGenerator.AddIndices fuel cullmode primitive num_vertices w
  | .AddExternalIndices indices num_indices num_vertices =>
      some (IndexGenerator.AddExternalIndices indices num_indices num_vertices w)

/-- Perform a sequence of calls, in order. -/
def runCalls (fuel : Nat) : Mem × IndexGenerator → List Call → Option (Mem × IndexGenerator)
  | w, [] => some w
  | w, c :: cs => (c.run fuel w).bind (fun w' => runCalls fuel w' cs)

/-- The total number of vertices passed by a sequence of calls. -/
def consumed (calls : List Call) : Nat := (calls.map Call.vertices).sum

/-- The calls whose loop exits: every `AddExternalIndices`, and every `AddIndices` with a
`u32` vertex count other than `GX_DRAW_LINES` with `0xFFFFFFFF` vertices (for which the
counter of `AddLineList`, advanced by 2, never reaches the bound). -/
def Call.returns : Call → Bool
  | .AddIndices _ primitive num_vertices =>
      decide (num_vertices < 4294967296) &&
        !(decide (primitive = Primitive.GX_DRAW_LINES) && decide (num_vertices = 4294967295))
  | .AddExternalIndices _ _ _ => true

/-! ## Closed forms of what the loops store -/

/-- Memory in which the values `g 0, ..., g (n - 1)` have been stored at `p, ..., p + n - 1`. -/
def fill (mem : Mem) (p n : Nat) (g : Nat → Nat) : Mem :=
  fun a => if p ≤ a ∧ a < p + n then g (a - p) else mem a

/-- Value stored by `AddPoints` at offset `d` from the initial `index_ptr`. -/
def AddPoints.value (index d : Nat) : Nat := u16 (u32 (index + d))

/-- Value stored by `AddLineList` at offset `d`: pair `d / 2` is `(index + i, index + i + 1)`
with `i = 2 * (d / 2)`. -/
def AddLineList.value (index d : Nat) : Nat :=
  if d % 2 = 0 then u16 (u32 (index + 2 * (d / 2))) else u16 (u32 (index + 2 * (d / 2) + 1))

/-- Value stored by `AddLineStrip` at offset `d`: pair `d / 2` is `(index + i, index + i + 1)`
with `i = d / 2`. -/
def AddLineStrip.value (index d : Nat) : Nat :=
  if d % 2 = 0 then u16 (u32 (index + d / 2)) else u16 (u32 (index + d / 2 + 1))

/-- Value stored by `AddList` at offset `d`: triple `d / 3` is
`(index + i, index + i + v1, index + i + v2)` with `i = 3 * (d / 3)`. -/
def AddList.value (index v1 v2 d : Nat) : Nat :=
  if d % 3 = 0 then u16 (u32 (index + 3 * (d / 3)))
  else if d % 3 = 1 then u16 (u32 (index + 3 * (d / 3) + v1))
  else u16 (u32 (index + 3 * (d / 3) + v2))

/-- Value stored by `AddFan` at offset `d`: triple `d / 3` is
`(index, index + i + v1, index + i + v2)` with `i = d / 3`. -/
def AddFan.value (index v1 v2 d : Nat) : Nat :=
  if d % 3 = 0 then u16 (u32 index)
  else if d % 3 = 1 then u16 (u32 (index + d / 3 + v1))
  else u16 (u32 (index + d / 3 + v2))

/-- Value stored by `AddQuads` at offset `d`: group `d / 6` is the two triangles on
`i = 4 * (d / 6)`; the triangle stored after the loop continues the same pattern. -/
def AddQuads.value (index v1 v2 v3 v4 d : Nat) : Nat :=
  if d % 6 = 0 then u16 (u32 (index + 4 * (d / 6)))
  else if d % 6 = 1 then u16 (u32 (index + 4 * (d / 6) + v1))
  else if d % 6 = 2 then u16 (u32 (index + 4 * (d / 6) + v2))
  else if d % 6 = 3 then u16 (u32 (index + 4 * (d / 6)))
  else if d % 6 = 4 then u16 (u32 (index + 4 * (d / 6) + v3))
  else u16 (u32 (index + 4 * (d / 6) + v4))

/-- The value of `wind` at the start of iteration `k` of `AddStrip`. -/
def AddStrip.windAt (wind k : Nat) : Nat := if k % 2 = 0 then wind else wind ^^^ 3

/-- Value stored by `AddStrip` at offset `d`: triple `d / 3` is
`(index + i, index + i + wind, index + i + (wind ^ 3))` with `i = d / 3`. -/
def AddStrip.value (index wind d : Nat) : Nat :=
  if d % 3 = 0 then u16 (u32 (index + d / 3))
  else if d % 3 = 1 then u16 (u32 (index + d / 3 + AddStrip.windAt wind (d / 3)))
  else u16 (u32 (index + d / 3 + (AddStrip.windAt wind (d / 3) ^^^ 3)))

/-- The number of indices the expander of a primitive stores for a `u32` vertex count
(closed form of the iteration counts of the loops above). -/
def emitted : Primitive → Nat → Nat
  | .GX_DRAW_QUADS, n => 6 * (n / 4) + (if n % 4 = 0 then 0 else 3)
  | .GX_DRAW_QUADS_2, n => 6 * (n / 4) + (if n % 4 = 0 then 0 else 3)
  | .GX_DRAW_TRIANGLES, n => 3 * ((n + 2) / 3)
  | .GX_DRAW_TRIANGLE_STRIP, n => 3 * u32sub n 2
  | .GX_DRAW_TRIANGLE_FAN, n => 3 * (if n < 3 then 1 else u32sub n 2)
  | .GX_DRAW_LINES, n => 2 * ((n + 1) / 2)
  | .GX_DRAW_LINE_STRIP, n => 2 * u32sub n 1
  | .GX_DRAW_POINTS, n => n

/-- The well-formed draws: a vertex count that fills whole primitives (any count of points,
an even count for a line list, a multiple of 3 for a triangle list and of 4 for quads, at
least 2 vertices for a line strip and at least 3 for a triangle strip or fan). -/
def wellFormed : Primitive → Nat → Bool
  | .GX_DRAW_QUADS, n => decide (n % 4 = 0)
  | .GX_DRAW_QUADS_2, n => decide (n % 4 = 0)
  | .GX_DRAW_TRIANGLES, n => decide (n % 3 = 0)
  | .GX_DRAW_TRIANGLE_STRIP, n => decide (3 ≤ n)
  | .GX_DRAW_TRIANGLE_FAN, n => decide (3 ≤ n)
  | .GX_DRAW_LINES, n => decide (n % 2 = 0)
  | .GX_DRAW_LINE_STRIP, n => decide (2 ≤ n)
  | .GX_DRAW_POINTS, _ => true

/-! ## Loops -/

theorem whileLoop_iterate {σ : Type} (cond : σ → Bool) (body : σ → σ) :
    ∀ (k fuel : Nat) (s : σ), k < fuel → (∀ j, j < k → cond (body^[j] s) = true) →
      cond (body^[k] s) = false → whileLoop cond body fuel s = some (body^[k] s) := by
  intro k
  induction k with
  | zero =>
    intro fuel s hk _ hstop
    obtain ⟨f, rfl⟩ : ∃ f, fuel = f + 1 := ⟨fuel - 1, by omega⟩
    simp only [Function.iterate_zero, id_eq] at hstop
    simp [whileLoop, hstop]
  | succ k ih =>
    intro fuel s hk hgo hstop
    obtain ⟨f, rfl⟩ : ∃ f, fuel = f + 1 := ⟨fuel - 1, by omega⟩
    have h0 : cond s = true := hgo 0 (by omega)
    simp only [whileLoop, h0, if_true]
    rw [Function.iterate_succ_apply]
    apply ih f (body s) (by omega)
    · intro j hj
      have := hgo (j + 1) (by omega)
      rwa [Function.iterate_succ_apply] at this
    · rwa [Function.iterate_succ_apply] at hstop

theorem whileLoop_mono {σ : Type} (cond : σ → Bool) (body : σ → σ) :
    ∀ (fuel : Nat) (s r : σ), whileLoop cond body fuel s = some r →
      ∀ extra, whileLoop cond body (fuel + extra) s = some r := by
  intro fuel
  induction fuel with
  | zero => intro s r h; simp [whileLoop] at h
  | succ f ih =>
    intro s r h extra
    rw [show f + 1 + extra = (f + extra) + 1 by omega]
    simp only [whileLoop] at h ⊢
    split at h
    · rename_i hc
      simp only [hc, if_true]
      exact ih _ _ h extra
    · rename_i hc
      simpa [hc] using h

theorem whileLoop_unique {σ : Type} (cond : σ → Bool) (body : σ → σ) (f1 f2 : Nat)
    (s r1 r2 : σ) (h1 : whileLoop cond body f1 s = some r1)
    (h2 : whileLoop cond body f2 s = some r2) : r1 = r2 := by
  have a := whileLoop_mono cond body f1 s r1 h1 f2
  have b := whileLoop_mono cond body f2 s r2 h2 f1
  rw [Nat.add_comm] at b
  rw [a] at b
  exact Option.some.inj b

theorem whileLoop_diverges {σ : Type} (cond : σ → Bool) (body : σ → σ) (inv : σ → Prop)
    (hinv : ∀ s, inv s → cond s = true ∧ inv (body s)) :
    ∀ (fuel : Nat) (s : σ), inv s → whileLoop cond body fuel s = none := by
  intro fuel
  induction fuel with
  | zero => intro s _; rfl
  | succ f ih =>
    intro s hs
    obtain ⟨hc, hb⟩ := hinv s hs
    simp only [whileLoop, hc, if_true]
    exact ih _ hb

/-! ## Memory lemmas -/

theorem fill_zero (mem : Mem) (p : Nat) (g : Nat → Nat) : fill mem p 0 g = mem := by
  funext a
  simp only [fill]
  split
  · omega
  · rfl

theorem fill_inside (mem : Mem) (p n : Nat) (g : Nat → Nat) (d : Nat) (h : d < n) :
    fill mem p n g (p + d) = g d := by
  simp only [fill]
  rw [if_pos ⟨by omega, by omega⟩]
  congr 1
  omega

theorem fill_outside (mem : Mem) (p n : Nat) (g : Nat → Nat) (a : Nat)
    (h : a < p ∨ p + n ≤ a) : fill mem p n g a = mem a := by
  simp only [fill]
  rw [if_neg (by omega)]

theorem store_fill (mem : Mem) (p n : Nat) (g : Nat → Nat) (v : Nat) (h : g n = v) :
    store (fill mem p n g) (p + n) v = fill mem p (n + 1) g := by
  funext a
  simp only [store, fill]
  by_cases ha : a = p + n
  · subst ha
    rw [if_pos rfl, if_pos ⟨by omega, by omega⟩, ← h]
    congr 1
    omega
  · rw [if_neg ha]
    by_cases hin : p ≤ a ∧ a < p + n
    · rw [if_pos hin, if_pos ⟨hin.1, by omega⟩]
    · rw [if_neg hin, if_neg (by omega)]

theorem LoopState_put_fill (i : Nat) (mem : Mem) (p n : Nat) (g : Nat → Nat) (value : Nat)
    (h : g n = u16 (u32 value)) :
    LoopState.put ⟨i, fill mem p n g, p + n⟩ value = ⟨i, fill mem p (n + 1) g, p + (n + 1)⟩ := by
  simp only [LoopState.put, store_fill mem p n g _ h]
  rfl

/-- A loop whose `k`-th iteration advances the counter by `step` and stores the next `w`
values of `g` runs `K` times when its condition holds before iterations `0, ..., K - 1`
and fails after them. -/
theorem loop_run (cond : LoopState → Bool) (body : LoopState → LoopState)
    (step w : Nat) (g : Nat → Nat) (mem : Mem) (p K : Nat)
    (hbody : ∀ k, k < K → body ⟨step * k, fill mem p (w * k) g, p + w * k⟩
      = ⟨step * (k + 1), fill mem p (w * (k + 1)) g, p + w * (k + 1)⟩)
    (hgo : ∀ k, k < K → cond ⟨step * k, fill mem p (w * k) g, p + w * k⟩ = true)
    (hstop : cond ⟨step * K, fill mem p (w * K) g, p + w * K⟩ = false)
    (fuel : Nat) (hfuel : K < fuel) :
    whileLoop cond body fuel ⟨0, mem, p⟩
      = some ⟨step * K, fill mem p (w * K) g, p + w * K⟩ := by
  have closed : ∀ k, k ≤ K →
      body^[k] ⟨0, mem, p⟩ = ⟨step * k, fill mem p (w * k) g, p + w * k⟩ := by
    intro k
    induction k with
    | zero => intro _; simp [fill_zero]
    | succ k ih =>
      intro hk
      rw [Function.iterate_succ_apply', ih (by omega), hbody k (by omega)]
  rw [← closed K (le_refl K)]
  apply whileLoop_iterate cond body K fuel _ hfuel
  · intro j hj
    rw [closed j (by omega)]
    exact hgo j hj
  · rw [closed K (le_refl K)]
    exact hstop

/-! ## AddPoints -/

theorem AddPoints_run (fuel : Nat) (mem : Mem) (index_ptr num_verts index : Nat)
    (hN : num_verts < 4294967296) (hfuel : num_verts < fuel) :
    AddPoints fuel mem index_ptr num_verts index
      = some (fill mem index_ptr num_verts (AddPoints.value index), index_ptr + num_verts) := by
  unfold AddPoints
  rw [loop_run _ (AddPoints.body index) 1 1 (AddPoints.value index) mem index_ptr num_verts
    _ _ _ fuel hfuel]
  · simp [LoopState.result]
  · intro k hk
    simp only [AddPoints.body, one_mul]
    rw [LoopState_put_fill k mem index_ptr k (AddPoints.value index) (index + k) rfl]
    have : u32 (k + 1) = k + 1 := Nat.mod_eq_of_lt (by omega)
    simp only [this]
  · intro k hk
    simp
    omega
  · simp

/-! ## Arithmetic lemmas -/

theorem u32_of_lt (x : Nat) (h : x < 4294967296) : u32 x = x := Nat.mod_eq_of_lt h

theorem u16_u32_of_lt (x : Nat) (h : x < 65536) : u16 (u32 x) = x := by
  unfold u16 u32
  omega

theorem u32sub_of_le (a b : Nat) (ha : a < 4294967296) (hb : b ≤ a) : u32sub a b = a - b := by
  unfold u32sub u32
  omega

theorem and_three (n : Nat) : n &&& 3 = n % 4 := by
  have := Nat.and_pow_two_sub_one_eq_mod n 2
  simpa using this

theorem and_not_three (n : Nat) (h : n < 4294967296) : n &&& 4294967292 = 4 * (n / 4) := by
  apply Nat.eq_of_testBit_eq
  intro i
  rw [Nat.testBit_and]
  have e : 4 * (n / 4) = (n >>> 2) <<< 2 := by
    rw [Nat.shiftRight_eq_div_pow, Nat.shiftLeft_eq]; norm_num; ring
  rw [e, Nat.testBit_shiftLeft, Nat.testBit_shiftRight]
  by_cases hi : i < 2
  · have : (4294967292 : Nat).testBit i = false := by
      interval_cases i <;> decide
    simp [this]; omega
  · have hadd : 2 + (i - 2) = i := by omega
    by_cases hi2 : i < 32
    · have : (4294967292 : Nat).testBit i = true := by
        interval_cases i <;> decide
      simp [this, hadd]; omega
    · have hn : n.testBit i = false := by
        apply Nat.testBit_eq_false_of_lt
        calc n < 2^32 := by norm_num; exact h
          _ ≤ 2^i := Nat.pow_le_pow_right (by norm_num) (by omega)
      simp [hn, hadd]

/-! ## AddLineList -/

theorem AddLineList_run (fuel : Nat) (mem : Mem) (index_ptr num_verts index : Nat)
    (hN : num_verts < 4294967295) (hfuel : (num_verts + 1) / 2 < fuel) :
    AddLineList fuel mem index_ptr num_verts index
      = some (fill mem index_ptr (2 * ((num_verts + 1) / 2)) (AddLineList.value index),
          index_ptr + 2 * ((num_verts + 1) / 2)) := by
  unfold AddLineList
  rw [loop_run _ (AddLineList.body index) 2 2 (AddLineList.value index) mem index_ptr
    ((num_verts + 1) / 2) _ _ _ fuel hfuel]
  · simp [LoopState.result]
  · intro k hk
    simp only [AddLineList.body]
    have e0 : AddLineList.value index (2 * k) = u16 (u32 (index + 2 * k)) := by
      have h1 : 2 * k % 2 = 0 := by omega
      have h2 : 2 * k / 2 = k := by omega
      simp only [AddLineList.value, h1, h2, if_true]
    have e1 : AddLineList.value index (2 * k + 1) = u16 (u32 (index + 2 * k + 1)) := by
      have h1 : (2 * k + 1) % 2 = 1 := by omega
      have h2 : (2 * k + 1) / 2 = k := by omega
      simp [AddLineList.value, h1, h2]
    rw [LoopState_put_fill (2 * k) mem index_ptr (2 * k) _ (index + 2 * k) e0]
    rw [LoopState_put_fill (2 * k) mem index_ptr (2 * k + 1) _ (index + 2 * k + 1) e1]
    have : u32 (2 * k + 2) = 2 * (k + 1) := by rw [u32_of_lt _ (by omega)]; ring
    simp only [this]
    rfl
  · intro k hk
    simp
    omega
  · simp
    omega

/-! ## AddLineStrip -/

theorem AddLineStrip_run (fuel : Nat) (mem : Mem) (index_ptr num_verts index : Nat)
    (hfuel : u32sub num_verts 1 < fuel) :
    AddLineStrip fuel mem index_ptr num_verts index
      = some (fill mem index_ptr (2 * u32sub num_verts 1) (AddLineStrip.value index),
          index_ptr + 2 * u32sub num_verts 1) := by
  have hK : u32sub num_verts 1 < 4294967296 := Nat.mod_lt _ (by norm_num)
  unfold AddLineStrip
  rw [loop_run _ (AddLineStrip.body index) 1 2 (AddLineStrip.value index) mem index_ptr
    (u32sub num_verts 1) _ _ _ fuel hfuel]
  · simp [LoopState.result]
  · intro k hk
    simp only [AddLineStrip.body, one_mul]
    have e0 : AddLineStrip.value index (2 * k) = u16 (u32 (index + k)) := by
      have h1 : 2 * k % 2 = 0 := by omega
      have h2 : 2 * k / 2 = k := by omega
      simp only [AddLineStrip.value, h1, h2, if_true]
    have e1 : AddLineStrip.value index (2 * k + 1) = u16 (u32 (index + k + 1)) := by
      have h1 : (2 * k + 1) % 2 = 1 := by omega
      have h2 : (2 * k + 1) / 2 = k := by omega
      simp [AddLineStrip.value, h1, h2]
    rw [LoopState_put_fill k mem index_ptr (2 * k) _ (index + k) e0]
    rw [LoopState_put_fill k mem index_ptr (2 * k + 1) _ (index + k + 1) e1]
    have : u32 (k + 1) = k + 1 := u32_of_lt _ (by omega)
    simp only [this]
    rfl
  · intro k hk
    simp
    omega
  · simp

/-! ## AddList -/

theorem AddList_value_zero (index v1 v2 k : Nat) :
    AddList.value index v1 v2 (3 * k) = u16 (u32 (index + 3 * k)) := by
  have h1 : 3 * k % 3 = 0 := by omega
  have h2 : 3 * k / 3 = k := by omega
  simp only [AddList.value, h1, h2, if_true]

theorem AddList_value_one (index v1 v2 k : Nat) :
    AddList.value index v1 v2 (3 * k + 1) = u16 (u32 (index + 3 * k + v1)) := by
  have h1 : (3 * k + 1) % 3 = 1 := by omega
  have h2 : (3 * k + 1) / 3 = k := by omega
  simp [AddList.value, h1, h2]

theorem AddList_value_two (index v1 v2 k : Nat) :
    AddList.value index v1 v2 (3 * k + 2) = u16 (u32 (index + 3 * k + v2)) := by
  have h1 : (3 * k + 2) % 3 = 2 := by omega
  have h2 : (3 * k + 2) / 3 = k := by omega
  simp [AddList.value, h1, h2]

theorem AddList_run (fuel : Nat) (cullmode : CullMode) (mem : Mem)
    (index_ptr num_verts index : Nat)
    (hN : num_verts < 4294967296) (hfuel : (num_verts + 2) / 3 < fuel) :
    AddList fuel cullmode mem index_ptr num_verts index
      = some (fill mem index_ptr (3 * ((num_verts + 2) / 3))
            (AddList.value index (if ccw cullmode then 2 else 1) (if ccw cullmode then 1 else 2)),
          index_ptr + 3 * ((num_verts + 2) / 3)) := by
  unfold AddList
  simp only []
  generalize (if ccw cullmode then 2 else 1) = v1
  generalize (if ccw cullmode then 1 else 2) = v2
  rw [loop_run _ (AddList.body index v1 v2) 3 3 (AddList.value index v1 v2) mem index_ptr
    ((num_verts + 2) / 3) _ _ _ fuel hfuel]
  · simp [LoopState.result]
  · intro k hk
    simp only [AddList.body]
    rw [LoopState_put_fill (3 * k) mem index_ptr (3 * k) _ (index + 3 * k)
      (AddList_value_zero index v1 v2 k)]
    rw [LoopState_put_fill (3 * k) mem index_ptr (3 * k + 1) _ (index + 3 * k + v1)
      (AddList_value_one index v1 v2 k)]
    rw [LoopState_put_fill (3 * k) mem index_ptr (3 * k + 1 + 1) _ (index + 3 * k + v2)
      (AddList_value_two index v1 v2 k)]
    have : u32 (3 * k + 3) = 3 * (k + 1) := by rw [u32_of_lt _ (by omega)]; ring
    simp only [this]
    rfl
  · intro k hk
    simp
    omega
  · simp
    omega

/-! ## AddFan -/

theorem AddFan_value_zero (index v1 v2 k : Nat) :
    AddFan.value index v1 v2 (3 * k) = u16 (u32 index) := by
  have h1 : 3 * k % 3 = 0 := by omega
  simp only [AddFan.value, h1, if_true]

theorem AddFan_value_one (index v1 v2 k : Nat) :
    AddFan.value index v1 v2 (3 * k + 1) = u16 (u32 (index + k + v1)) := by
  have h1 : (3 * k + 1) % 3 = 1 := by omega
  have h2 : (3 * k + 1) / 3 = k := by omega
  simp [AddFan.value, h1, h2]

theorem AddFan_value_two (index v1 v2 k : Nat) :
    AddFan.value index v1 v2 (3 * k + 2) = u16 (u32 (index + k + v2)) := by
  have h1 : (3 * k + 2) % 3 = 2 := by omega
  have h2 : (3 * k + 2) / 3 = k := by omega
  simp [AddFan.value, h1, h2]

theorem AddFan_run (fuel : Nat) (cullmode : CullMode) (mem : Mem)
    (index_ptr num_verts index K : Nat)
    (hK : K = if num_verts < 3 then 1 else u32sub num_verts 2) (hfuel : K < fuel) :
    AddFan fuel cullmode mem index_ptr num_verts index
      = some (fill mem index_ptr (3 * K)
            (AddFan.value index (if ccw cullmode then 2 else 1) (if ccw cullmode then 1 else 2)),
          index_ptr + 3 * K) := by
  have hlt : K < 4294967296 := by
    rw [hK]
    split
    · norm_num
    · exact Nat.mod_lt _ (by norm_num)
  unfold AddFan
  simp only []
  rw [← hK]
  generalize (if ccw cullmode then 2 else 1) = v1
  generalize (if ccw cullmode then 1 else 2) = v2
  rw [loop_run _ (AddFan.body index v1 v2) 1 3 (AddFan.value index v1 v2) mem index_ptr
    K _ _ _ fuel hfuel]
  · simp [LoopState.result]
  · intro k hk
    simp only [AddFan.body, one_mul]
    rw [LoopState_put_fill k mem index_ptr (3 * k) _ index
      (AddFan_value_zero index v1 v2 k)]
    rw [LoopState_put_fill k mem index_ptr (3 * k + 1) _ (index + k + v1)
      (AddFan_value_one index v1 v2 k)]
    rw [LoopState_put_fill k mem index_ptr (3 * k + 1 + 1) _ (index + k + v2)
      (AddFan_value_two index v1 v2 k)]
    have : u32 (k + 1) = k + 1 := u32_of_lt _ (by omega)
    simp only [this]
    rfl
  · intro k hk
    simp
    omega
  · simp

/-! ## AddQuads -/

theorem AddQuads_value_at (index v1 v2 v3 v4 k : Nat) :
    AddQuads.value index v1 v2 v3 v4 (6 * k) = u16 (u32 (index + 4 * k)) ∧
    AddQuads.value index v1 v2 v3 v4 (6 * k + 1) = u16 (u32 (index + 4 * k + v1)) ∧
    AddQuads.value index v1 v2 v3 v4 (6 * k + 2) = u16 (u32 (index + 4 * k + v2)) ∧
    AddQuads.value index v1 v2 v3 v4 (6 * k + 3) = u16 (u32 (index + 4 * k)) ∧
    AddQuads.value index v1 v2 v3 v4 (6 * k + 4) = u16 (u32 (index + 4 * k + v3)) ∧
    AddQuads.value index v1 v2 v3 v4 (6 * k + 5) = u16 (u32 (index + 4 * k + v4)) := by
  have d0 : 6 * k / 6 = k := by omega
  have d1 : (6 * k + 1) / 6 = k := by omega
  have d2 : (6 * k + 2) / 6 = k := by omega
  have d3 : (6 * k + 3) / 6 = k := by omega
  have d4 : (6 * k + 4) / 6 = k := by omega
  have d5 : (6 * k + 5) / 6 = k := by omega
  have m0 : 6 * k % 6 = 0 := by omega
  have m1 : (6 * k + 1) % 6 = 1 := by omega
  have m2 : (6 * k + 2) % 6 = 2 := by omega
  have m3 : (6 * k + 3) % 6 = 3 := by omega
  have m4 : (6 * k + 4) % 6 = 4 := by omega
  have m5 : (6 * k + 5) % 6 = 5 := by omega
  refine ⟨?_, ?_, ?_, ?_, ?_, ?_⟩
  · simp only [AddQuads.value, m0, d0, if_true]
  · simp [AddQuads.value, m1, d1]
  · simp [AddQuads.value, m2, d2]
  · simp [AddQuads.value, m3, d3]
  · simp [AddQuads.value, m4, d4]
  · simp [AddQuads.value, m5, d5]

theorem AddQuads_run (fuel : Nat) (cullmode : CullMode) (mem : Mem)
    (index_ptr num_verts index : Nat)
    (hN : num_verts < 4294967296) (hfuel : num_verts / 4 < fuel) :
    AddQuads fuel cullmode mem index_ptr num_verts index
      = some (fill mem index_ptr (6 * (num_verts / 4) + (if num_verts % 4 = 0 then 0 else 3))
            (AddQuads.value index (if ccw cullmode then 2 else 1) (if ccw cullmode then 1 else 2)
              (if ccw cullmode then 3 else 2) (if ccw cullmode then 2 else 3)),
          index_ptr + (6 * (num_verts / 4) + (if num_verts % 4 = 0 then 0 else 3))) := by
  unfold AddQuads
  simp only []
  generalize (if ccw cullmode then 2 else 1) = v1
  generalize (if ccw cullmode then 1 else 2) = v2
  generalize (if ccw cullmode then 3 else 2) = v3
  generalize (if ccw cullmode then 2 else 3) = v4
  rw [and_not_three num_verts hN]
  rw [loop_run _ (AddQuads.body index v1 v2 v3 v4) 4 6 (AddQuads.value index v1 v2 v3 v4)
    mem index_ptr (num_verts / 4) _ _ _ fuel hfuel]
  · obtain ⟨e0, e1, e2, -, -, -⟩ := AddQuads_value_at index v1 v2 v3 v4 (num_verts / 4)
    simp only [Option.map_some', AddQuads.tail, and_three]
    by_cases hr : num_verts % 4 = 0
    · simp [hr, LoopState.result]
    · simp only [hr, ne_eq, not_false_eq_true, if_true, if_false]
      rw [LoopState_put_fill _ mem index_ptr (6 * (num_verts / 4)) _ _ e0]
      rw [LoopState_put_fill _ mem index_ptr (6 * (num_verts / 4) + 1) _ _ e1]
      rw [LoopState_put_fill _ mem index_ptr (6 * (num_verts / 4) + 1 + 1) _ _ e2]
      rfl
  · intro k hk
    obtain ⟨e0, e1, e2, e3, e4, e5⟩ := AddQuads_value_at index v1 v2 v3 v4 k
    simp only [AddQuads.body]
    rw [LoopState_put_fill (4 * k) mem index_ptr (6 * k) _ _ e0]
    rw [LoopState_put_fill (4 * k) mem index_ptr (6 * k + 1) _ _ e1]
    rw [LoopState_put_fill (4 * k) mem index_ptr (6 * k + 1 + 1) _ _ e2]
    rw [LoopState_put_fill (4 * k) mem index_ptr (6 * k + 1 + 1 + 1) _ _ e3]
    rw [LoopState_put_fill (4 * k) mem index_ptr (6 * k + 1 + 1 + 1 + 1) _ _ e4]
    rw [LoopState_put_fill (4 * k) mem index_ptr (6 * k + 1 + 1 + 1 + 1 + 1) _ _ e5]
    have : u32 (4 * k + 4) = 4 * (k + 1) := by rw [u32_of_lt _ (by omega)]; ring
    simp only [this]
    rfl
  · intro k hk
    simp
    omega
  · simp

/-! ## AddStrip -/

theorem StripState_put_fill (i wind : Nat) (mem : Mem) (p n : Nat) (g : Nat → Nat) (value : Nat)
    (h : g n = u16 (u32 value)) :
    StripState.put ⟨i, wind, fill mem p n g, p + n⟩ value
      = ⟨i, wind, fill mem p (n + 1) g, p + (n + 1)⟩ := by
  simp only [StripState.put, store_fill mem p n g _ h]
  rfl

theorem AddStrip_windAt_succ (wind k : Nat) :
    AddStrip.windAt wind k ^^^ 3 = AddStrip.windAt wind (k + 1) := by
  unfold AddStrip.windAt
  by_cases h : k % 2 = 0
  · have h' : ¬ (k + 1) % 2 = 0 := by omega
    simp [h, h']
  · have h' : (k + 1) % 2 = 0 := by omega
    simp only [h, h', if_true, if_false]
    rw [Nat.xor_assoc]
    simp

theorem AddStrip_value_zero (index wind k : Nat) :
    AddStrip.value index wind (3 * k) = u16 (u32 (index + k)) := by
  have h1 : 3 * k % 3 = 0 := by omega
  have h2 : 3 * k / 3 = k := by omega
  simp only [AddStrip.value, h1, h2, if_true]

theorem AddStrip_value_one (index wind k : Nat) :
    AddStrip.value index wind (3 * k + 1)
      = u16 (u32 (index + k + AddStrip.windAt wind k)) := by
  have h1 : (3 * k + 1) % 3 = 1 := by omega
  have h2 : (3 * k + 1) / 3 = k := by omega
  simp [AddStrip.value, h1, h2]

theorem AddStrip_value_two (index wind k : Nat) :
    AddStrip.value index wind (3 * k + 2)
      = u16 (u32 (index + k + (AddStrip.windAt wind k ^^^ 3))) := by
  have h1 : (3 * k + 2) % 3 = 2 := by omega
  have h2 : (3 * k + 2) / 3 = k := by omega
  simp [AddStrip.value, h1, h2]

theorem AddStrip_body_closed (index wind : Nat) (mem : Mem) (p k : Nat)
    (hk : k + 1 < 4294967296) :
    AddStrip.body index
        ⟨k, AddStrip.windAt wind k, fill mem p (3 * k) (AddStrip.value index wind), p + 3 * k⟩
      = ⟨k + 1, AddStrip.windAt wind (k + 1),
          fill mem p (3 * (k + 1)) (AddStrip.value index wind), p + 3 * (k + 1)⟩ := by
  simp only [AddStrip.body]
  rw [StripState_put_fill k _ mem p (3 * k) _ (index + k) (AddStrip_value_zero index wind k)]
  rw [StripState_put_fill k _ mem p (3 * k + 1) _ _ (AddStrip_value_one index wind k)]
  simp only []
  rw [StripState_put_fill k _ mem p (3 * k + 1 + 1) _ _ (AddStrip_value_two index wind k)]
  simp only [u32_of_lt _ hk, AddStrip_windAt_succ]
  rfl

theorem AddStrip_run (fuel : Nat) (cullmode : CullMode) (mem : Mem)
    (index_ptr num_verts index : Nat) (hfuel : u32sub num_verts 2 < fuel) :
    AddStrip fuel cullmode mem index_ptr num_verts index
      = some (fill mem index_ptr (3 * u32sub num_verts 2)
            (AddStrip.value index (if ccw cullmode then 2 else 1)),
          index_ptr + 3 * u32sub num_verts 2) := by
  have hK : u32sub num_verts 2 < 4294967296 := Nat.mod_lt _ (by norm_num)
  unfold AddStrip
  simp only []
  generalize (if ccw cullmode then 2 else 1) = wind
  generalize u32sub num_verts 2 = K at hK hfuel ⊢
  have closed : ∀ k, k ≤ K →
      (AddStrip.body index)^[k] ⟨0, wind, mem, index_ptr⟩
        = ⟨k, AddStrip.windAt wind k, fill mem index_ptr (3 * k) (AddStrip.value index wind),
            index_ptr + 3 * k⟩ := by
    intro k
    induction k with
    | zero => intro _; simp [fill_zero, AddStrip.windAt]
    | succ k ih =>
      intro hk
      rw [Function.iterate_succ_apply', ih (by omega),
        AddStrip_body_closed index wind mem index_ptr k (by omega)]
  rw [whileLoop_iterate _ (AddStrip.body index) K fuel _ hfuel, closed K (le_refl K)]
  · simp
  · intro j hj
    rw [closed j (by omega)]
    simpa using hj
  · rw [closed K (le_refl K)]
    simp

/-! ## Results of the expanders do not depend on the loop budget -/

theorem map_whileLoop_mono {σ α : Type} (cond : σ → Bool) (body : σ → σ) (f : σ → α)
    (fuel : Nat) (s : σ) (r : α) (h : (whileLoop cond body fuel s).map f = some r)
    (extra : Nat) : (whileLoop cond body (fuel + extra) s).map f = some r := by
  cases hw : whileLoop cond body fuel s with
  | none => simp [hw] at h
  | some t =>
    rw [hw] at h
    rw [whileLoop_mono cond body fuel s t hw extra]
    exact h

theorem m_primitive_table_mono (primitive : Primitive) (fuel : Nat) (cullmode : CullMode)
    (mem : Mem) (index_ptr num_verts index : Nat) (r : Mem × Nat)
    (h : m_primitive_table primitive fuel cullmode mem index_ptr num_verts index = some r)
    (extra : Nat) :
    m_primitive_table primitive (fuel + extra) cullmode mem index_ptr num_verts index
      = some r := by
  cases primitive <;>
    exact map_whileLoop_mono _ _ _ fuel _ r h extra

theorem m_primitive_table_unique (primitive : Primitive) (f1 f2 : Nat) (cullmode : CullMode)
    (mem : Mem) (index_ptr num_verts index : Nat) (r1 r2 : Mem × Nat)
    (h1 : m_primitive_table primitive f1 cullmode mem index_ptr num_verts index = some r1)
    (h2 : m_primitive_table primitive f2 cullmode mem index_ptr num_verts index = some r2) :
    r1 = r2 := by
  have a := m_primitive_table_mono primitive f1 cullmode mem index_ptr num_verts index r1 h1 f2
  have b := m_primitive_table_mono primitive f2 cullmode mem index_ptr num_verts index r2 h2 f1
  rw [Nat.add_comm] at b
  rw [a] at b
  exact Option.some.inj b

/-! ## Points (C7) -/

/-- C7: for every base index `B` and vertex count `N` with `B + N ≤ 65536`, the Points
expander returns (as soon as the loop budget exceeds `N`), the returned pointer is
`index_ptr + N`, the element at offset `i` is `B + i` for every `i < N`, nothing outside
the `N` appended elements is changed, and the result is the same for every cull mode. -/
theorem AddPoints_appends (fuel : Nat) (mem : Mem) (index_ptr N B : Nat)
    (hB : B + N ≤ 65536) (hfuel : N < fuel) :
    ∃ mem' : Mem,
      AddPoints fuel mem index_ptr N B = some (mem', index_ptr + N) ∧
      (∀ cullmode, m_primitive_table Primitive.GX_DRAW_POINTS fuel cullmode mem index_ptr N B
        = some (mem', index_ptr + N)) ∧
      (∀ i, i < N → mem' (index_ptr + i) = B + i) ∧
      (∀ a, a < index_ptr ∨ index_ptr + N ≤ a → mem' a = mem a) := by
  have hrun := AddPoints_run fuel mem index_ptr N B (by omega) hfuel
  refine ⟨_, hrun, fun _ => hrun, ?_, ?_⟩
  · intro i hi
    rw [fill_inside _ _ _ _ _ hi]
    exact u16_u32_of_lt _ (by omega)
  · intro a ha
    exact fill_outside _ _ _ _ _ ha

theorem AddPoints_appends_witness :
    100 + 4 ≤ 65536 ∧ 4 < 5 ∧
    ∃ mem' : Mem,
      AddPoints 5 (fun _ => 0) 7 4 100 = some (mem', 7 + 4) ∧
      (∀ cullmode, m_primitive_table Primitive.GX_DRAW_POINTS 5 cullmode (fun _ => 0) 7 4 100
        = some (mem', 7 + 4)) ∧
      (∀ i, i < 4 → mem' (7 + i) = 100 + i) ∧
      (∀ a, a < 7 ∨ 7 + 4 ≤ a → mem' a = (fun _ => 0) a) :=
  ⟨by decide, by decide, AddPoints_appends 5 (fun _ => 0) 7 4 100 (by decide) (by decide)⟩

/-! ## Triangle fans (C4) -/

/-- C4: for every base index `B`, cull mode and vertex count `N` with
`B + max N 3 ≤ 65536`, the TriangleFan expander returns (loop budget at least `N + 2`)
having appended exactly `3 * (N - 2)` indices when `N ≥ 3` and exactly `3` when `N < 3`;
triangle `i` is `(B, B + i + v1, B + i + v2)` with `(v1, v2) = (2, 1)` under front-face
culling (counter-clockwise) and `(1, 2)` otherwise, so every triangle starts with `B`;
nothing outside the appended elements is changed. For `N = 5` that is 9 indices. -/
theorem AddFan_appends (fuel : Nat) (cullmode : CullMode) (mem : Mem) (index_ptr N B : Nat)
    (hB : B + max N 3 ≤ 65536) (hfuel : N + 2 ≤ fuel) :
    ∃ mem' : Mem,
      AddFan fuel cullmode mem index_ptr N B
        = some (mem', index_ptr + (if 3 ≤ N then 3 * (N - 2) else 3)) ∧
      (∀ i, i < (if 3 ≤ N then N - 2 else 1) →
        mem' (index_ptr + 3 * i) = B ∧
        mem' (index_ptr + 3 * i + 1) = B + i + (if ccw cullmode then 2 else 1) ∧
        mem' (index_ptr + 3 * i + 2) = B + i + (if ccw cullmode then 1 else 2)) ∧
      (∀ a, a < index_ptr ∨ index_ptr + (if 3 ≤ N then 3 * (N - 2) else 3) ≤ a →
        mem' a = mem a) := by
  have hmax : 3 ≤ max N 3 := le_max_right _ _
  have hmaxN : N ≤ max N 3 := le_max_left _ _
  obtain ⟨K, hK⟩ : ∃ K, K = if 3 ≤ N then N - 2 else 1 := ⟨_, rfl⟩
  have hK' : K = if N < 3 then 1 else u32sub N 2 := by
    rw [hK]
    by_cases h : 3 ≤ N
    · rw [if_pos h, if_neg (by omega), u32sub_of_le N 2 (by omega) (by omega)]
    · rw [if_neg h, if_pos (by omega)]
  have hcount : (if 3 ≤ N then 3 * (N - 2) else 3) = 3 * K := by
    rw [hK]; split <;> rfl
  have hKN : K + 2 ≤ max N 3 := by
    rw [hK]; split <;> omega
  have hrun := AddFan_run fuel cullmode mem index_ptr N B K hK' (by omega)
  rw [hcount, ← hK]
  refine ⟨_, hrun, ?_, ?_⟩
  · intro i hi
    have hv1 : (if ccw cullmode then 2 else 1) ≤ 2 := by split <;> omega
    have hv2 : (if ccw cullmode then 1 else 2) ≤ 2 := by split <;> omega
    refine ⟨?_, ?_, ?_⟩
    · rw [fill_inside _ _ _ _ _ (by omega), AddFan_value_zero]
      exact u16_u32_of_lt _ (by omega)
    · rw [Nat.add_assoc, fill_inside _ _ _ _ _ (by omega), AddFan_value_one]
      exact u16_u32_of_lt _ (by omega)
    · rw [Nat.add_assoc, fill_inside _ _ _ _ _ (by omega), AddFan_value_two]
      exact u16_u32_of_lt _ (by omega)
  · intro a ha
    exact fill_outside _ _ _ _ _ ha

theorem AddFan_appends_witness :
    0 + max 5 3 ≤ 65536 ∧ 5 + 2 ≤ 7 ∧
    ∃ mem' : Mem,
      AddFan 7 CullMode.Front (fun _ => 0) 0 5 0
        = some (mem', 0 + (if 3 ≤ 5 then 3 * (5 - 2) else 3)) ∧
      (∀ i, i < (if 3 ≤ 5 then 5 - 2 else 1) →
        mem' (0 + 3 * i) = 0 ∧
        mem' (0 + 3 * i + 1) = 0 + i + (if ccw CullMode.Front then 2 else 1) ∧
        mem' (0 + 3 * i + 2) = 0 + i + (if ccw CullMode.Front then 1 else 2)) ∧
      (∀ a, a < 0 ∨ 0 + (if 3 ≤ 5 then 3 * (5 - 2) else 3) ≤ a →
        mem' a = (fun _ => 0) a) :=
  ⟨by decide, by decide,
    AddFan_appends 7 CullMode.Front (fun _ => 0) 0 5 0 (by decide) (by decide)⟩

/-! ## Triangle strips (C1) -/

/-- C1, at the failing inputs `N = 1` and `N = 0` with `B = 0`: the `u32` difference
`num_verts - 2` wraps to 4294967295 (resp. 4294967294), so the TriangleStrip loop runs that
many times: every run that returns has appended 3 * 4294967295 = 12884901885 (resp.
12884901882) indices, the first triangle being `(0, 1, 2)`, where the claim has no index
appended for `N < 3`. -/
theorem AddStrip_below_two_vertices :
    u32sub 1 2 = 4294967295 ∧ u32sub 0 2 = 4294967294 ∧
    (∃ mem' : Mem,
      AddStrip 4294967296 CullMode.Back (fun _ => 0) 0 1 0 = some (mem', 12884901885) ∧
      mem' 0 = 0 ∧ mem' 1 = 1 ∧ mem' 2 = 2) ∧
    (∀ fuel r, AddStrip fuel CullMode.Back (fun _ => 0) 0 1 0 = some r → r.2 = 12884901885) ∧
    (∀ fuel r, AddStrip fuel CullMode.Back (fun _ => 0) 0 0 0 = some r → r.2 = 12884901882) := by
  have h1 : u32sub 1 2 = 4294967295 := by decide
  have h0 : u32sub 0 2 = 4294967294 := by decide
  have run1 := AddStrip_run 4294967296 CullMode.Back (fun _ => 0) 0 1 0 (by rw [h1]; decide)
  have run0 := AddStrip_run 4294967296 CullMode.Back (fun _ => 0) 0 0 0 (by rw [h0]; decide)
  rw [h1] at run1
  rw [h0] at run0
  refine ⟨h1, h0, ⟨_, run1, ?_, ?_, ?_⟩, ?_, ?_⟩
  · exact (fill_inside _ 0 _ _ 0 (by decide)).trans (by decide)
  · exact (fill_inside _ 0 _ _ 1 (by decide)).trans (by decide)
  · exact (fill_inside _ 0 _ _ 2 (by decide)).trans (by decide)
  · intro fuel r h
    have := m_primitive_table_unique Primitive.GX_DRAW_TRIANGLE_STRIP fuel 4294967296
      CullMode.Back (fun _ => 0) 0 1 0 r _ h run1
    rw [this]
  · intro fuel r h
    have := m_primitive_table_unique Primitive.GX_DRAW_TRIANGLE_STRIP fuel 4294967296
      CullMode.Back (fun _ => 0) 0 0 0 r _ h run0
    rw [this]

/-- From two vertices on the strip expander is as specified: for `N ≥ 2` and
`B + N ≤ 65534` the TriangleStrip expander appends exactly `3 * (N - 2)` indices, triangle `i` being
`(B + i, B + i + w_i, B + i + (3 - w_i))` with `w_0 = 2` under front-face culling and `1`
otherwise, and `w_(i+1) = 3 - w_i`. -/
theorem AddStrip_appends_of_two_le (fuel : Nat) (cullmode : CullMode) (mem : Mem)
    (index_ptr N B : Nat) (hN : 2 ≤ N) (hB : B + N ≤ 65534) (hfuel : N ≤ fuel) :
    ∃ mem' : Mem,
      AddStrip fuel cullmode mem index_ptr N B = some (mem', index_ptr + 3 * (N - 2)) ∧
      (∀ i, i + 3 ≤ N →
        mem' (index_ptr + 3 * i) = B + i ∧
        mem' (index_ptr + 3 * i + 1)
          = B + i + AddStrip.windAt (if ccw cullmode then 2 else 1) i ∧
        mem' (index_ptr + 3 * i + 2)
          = B + i + (3 - AddStrip.windAt (if ccw cullmode then 2 else 1) i)) ∧
      (∀ a, a < index_ptr ∨ index_ptr + 3 * (N - 2) ≤ a → mem' a = mem a) := by
  have hK : u32sub N 2 = N - 2 := u32sub_of_le N 2 (by omega) hN
  have hrun := AddStrip_run fuel cullmode mem index_ptr N B (by omega)
  rw [hK] at hrun
  refine ⟨_, hrun, ?_, ?_⟩
  · intro i hi
    have hw : AddStrip.windAt (if ccw cullmode then 2 else 1) i = 1 ∧
          AddStrip.windAt (if ccw cullmode then 2 else 1) i ^^^ 3 = 2 ∨
        AddStrip.windAt (if ccw cullmode then 2 else 1) i = 2 ∧
          AddStrip.windAt (if ccw cullmode then 2 else 1) i ^^^ 3 = 1 := by
      unfold AddStrip.windAt
      by_cases hc : ccw cullmode = true <;> by_cases hp : i % 2 = 0 <;> simp [hc, hp]
    refine ⟨?_, ?_, ?_⟩
    · rw [fill_inside _ _ _ _ _ (by omega), AddStrip_value_zero]
      exact u16_u32_of_lt _ (by omega)
    · rw [Nat.add_assoc, fill_inside _ _ _ _ _ (by omega), AddStrip_value_one]
      exact u16_u32_of_lt _ (by omega)
    · rw [Nat.add_assoc, fill_inside _ _ _ _ _ (by omega), AddStrip_value_two]
      rcases hw with ⟨a, b⟩ | ⟨a, b⟩
      · rw [b, a]
        exact u16_u32_of_lt _ (by omega)
      · rw [b, a]
        exact u16_u32_of_lt _ (by omega)
  · intro a ha
    exact fill_outside _ _ _ _ _ ha

/-! ## Line strips (C6) -/

/-- C6, at the failing input `N = 0`, `B = 0`: the `u32` difference `num_verts - 1` wraps to
4294967295, so the LineStrip loop runs that many times: every run that returns has appended
2 * 4294967295 = 8589934590 indices, the first pair being `(0, 1)`, where the claim has no
index appended for `N = 0`. -/
theorem AddLineStrip_zero_vertices :
    u32sub 0 1 = 4294967295 ∧
    (∃ mem' : Mem,
      AddLineStrip 4294967296 (fun _ => 7) 0 0 0 = some (mem', 8589934590) ∧
      mem' 0 = 0 ∧ mem' 1 = 1) ∧
    (∀ fuel r, AddLineStrip fuel (fun _ => 7) 0 0 0 = some r → r.2 = 8589934590) := by
  have h0 : u32sub 0 1 = 4294967295 := by decide
  have run0 := AddLineStrip_run 4294967296 (fun _ => 7) 0 0 0 (by rw [h0]; decide)
  rw [h0] at run0
  refine ⟨h0, ⟨_, run0, ?_, ?_⟩, ?_⟩
  · exact (fill_inside _ 0 _ _ 0 (by decide)).trans (by decide)
  · exact (fill_inside _ 0 _ _ 1 (by decide)).trans (by decide)
  · intro fuel r h
    have := m_primitive_table_unique Primitive.GX_DRAW_LINE_STRIP fuel 4294967296
      CullMode.Back (fun _ => 7) 0 0 0 r _ h run0
    rw [this]

/-- From one vertex on the line-strip expander is as specified: for `N ≥ 1` and
`B + N ≤ 65534` the LineStrip expander appends exactly `2 * (N - 1)` indices, the pairs `(B + i, B + i + 1)` for `i = 0 .. N - 2`
in order. -/
theorem AddLineStrip_appends_of_one_le (fuel : Nat) (mem : Mem) (index_ptr N B : Nat)
    (hN : 1 ≤ N) (hB : B + N ≤ 65534) (hfuel : N ≤ fuel) :
    ∃ mem' : Mem,
      AddLineStrip fuel mem index_ptr N B = some (mem', index_ptr + 2 * (N - 1)) ∧
      (∀ i, i + 2 ≤ N →
        mem' (index_ptr + 2 * i) = B + i ∧ mem' (index_ptr + 2 * i + 1) = B + i + 1) ∧
      (∀ a, a < index_ptr ∨ index_ptr + 2 * (N - 1) ≤ a → mem' a = mem a) := by
  have hK : u32sub N 1 = N - 1 := u32sub_of_le N 1 (by omega) hN
  have hrun := AddLineStrip_run fuel mem index_ptr N B (by omega)
  rw [hK] at hrun
  refine ⟨_, hrun, ?_, ?_⟩
  · intro i hi
    have h1 : 2 * i % 2 = 0 := by omega
    have h2 : 2 * i / 2 = i := by omega
    have h3 : (2 * i + 1) % 2 = 1 := by omega
    have h4 : (2 * i + 1) / 2 = i := by omega
    refine ⟨?_, ?_⟩
    · rw [fill_inside _ _ _ _ _ (by omega)]
      simp only [AddLineStrip.value, h1, h2, if_true]
      exact u16_u32_of_lt _ (by omega)
    · rw [Nat.add_assoc, fill_inside _ _ _ _ _ (by omega)]
      simp only [AddLineStrip.value, h3, h4]
      exact u16_u32_of_lt _ (by omega)
  · intro a ha
    exact fill_outside _ _ _ _ _ ha

/-! ## Quads (C2) -/

/-- C2, at the failing inputs `N = 5` and `N = 1` with `B = 0`: the test `num_verts & 3` is
true for a remainder of 1 or 2 vertices as well, so after the full group of four the Quads
expander appends one more triangle, `(4, 5, 6)`: every run that returns has appended 9
indices for `N = 5` (and 3 for `N = 1`), where the claim has 6 (and 0); `QuadsAlt` behaves
the same. -/
theorem AddQuads_remainder_one :
    (5 &&& 3 ≠ 0) ∧
    (∃ mem' : Mem,
      AddQuads 2 CullMode.Back (fun _ => 0) 0 5 0 = some (mem', 9) ∧
      AddQuads_nonstandard 2 CullMode.Back (fun _ => 0) 0 5 0 = some (mem', 9) ∧
      mem' 6 = 4 ∧ mem' 7 = 5 ∧ mem' 8 = 6) ∧
    (∀ fuel r, AddQuads fuel CullMode.Back (fun _ => 0) 0 5 0 = some r → r.2 = 9) ∧
    (∀ fuel r, AddQuads fuel CullMode.Back (fun _ => 0) 0 1 0 = some r → r.2 = 3) := by
  have run5 := AddQuads_run 2 CullMode.Back (fun _ => 0) 0 5 0 (by decide) (by decide)
  have run1 := AddQuads_run 2 CullMode.Back (fun _ => 0) 0 1 0 (by decide) (by decide)
  refine ⟨by decide, ⟨_, run5, run5, ?_, ?_, ?_⟩, ?_, ?_⟩
  · exact (fill_inside _ 0 _ _ 6 (by decide)).trans (by decide)
  · exact (fill_inside _ 0 _ _ 7 (by decide)).trans (by decide)
  · exact (fill_inside _ 0 _ _ 8 (by decide)).trans (by decide)
  · intro fuel r h
    have := m_primitive_table_unique Primitive.GX_DRAW_QUADS fuel 2
      CullMode.Back (fun _ => 0) 0 5 0 r _ h run5
    rw [this]
    decide
  · intro fuel r h
    have := m_primitive_table_unique Primitive.GX_DRAW_QUADS fuel 2
      CullMode.Back (fun _ => 0) 0 1 0 r _ h run1
    rw [this]
    decide

/-- What the Quads expander does for every vertex count: with `B + N ≤ 65534` it appends
`6 * (N / 4)` indices for the full groups of four, group `j` being the triangles
`(B + 4j, B + 4j + v1, B + 4j + v2)` and `(B + 4j, B + 4j + v3, B + 4j + v4)`, and three more
indices `(B + i, B + i + v1, B + i + v2)`, `i = 4 * (N / 4)`, whenever `N % 4 ≠ 0`. -/
theorem AddQuads_appends (fuel : Nat) (cullmode : CullMode) (mem : Mem)
    (index_ptr N B : Nat) (hB : B + N ≤ 65534) (hfuel : N < fuel) :
    ∃ mem' : Mem,
      AddQuads fuel cullmode mem index_ptr N B
        = some (mem', index_ptr + (6 * (N / 4) + (if N % 4 = 0 then 0 else 3))) ∧
      (∀ j, 4 * j + 4 ≤ N →
        mem' (index_ptr + 6 * j) = B + 4 * j ∧
        mem' (index_ptr + 6 * j + 1) = B + 4 * j + (if ccw cullmode then 2 else 1) ∧
        mem' (index_ptr + 6 * j + 2) = B + 4 * j + (if ccw cullmode then 1 else 2) ∧
        mem' (index_ptr + 6 * j + 3) = B + 4 * j ∧
        mem' (index_ptr + 6 * j + 4) = B + 4 * j + (if ccw cullmode then 3 else 2) ∧
        mem' (index_ptr + 6 * j + 5) = B + 4 * j + (if ccw cullmode then 2 else 3)) ∧
      (N % 4 ≠ 0 →
        mem' (index_ptr + 6 * (N / 4)) = B + 4 * (N / 4) ∧
        mem' (index_ptr + 6 * (N / 4) + 1)
          = B + 4 * (N / 4) + (if ccw cullmode then 2 else 1) ∧
        mem' (index_ptr + 6 * (N / 4) + 2)
          = B + 4 * (N / 4) + (if ccw cullmode then 1 else 2)) ∧
      (∀ a, a < index_ptr ∨ index_ptr + (6 * (N / 4) + (if N % 4 = 0 then 0 else 3)) ≤ a →
        mem' a = mem a) := by
  have hrun := AddQuads_run fuel cullmode mem index_ptr N B (by omega) (by omega)
  have hv1 : (if ccw cullmode then 2 else 1) ≤ 2 := by split <;> omega
  have hv2 : (if ccw cullmode then 1 else 2) ≤ 2 := by split <;> omega
  have hv3 : (if ccw cullmode then 3 else 2) ≤ 3 := by split <;> omega
  have hv4 : (if ccw cullmode then 2 else 3) ≤ 3 := by split <;> omega
  refine ⟨_, hrun, ?_, ?_, ?_⟩
  · intro j hj
    obtain ⟨e0, e1, e2, e3, e4, e5⟩ := AddQuads_value_at B (if ccw cullmode then 2 else 1)
      (if ccw cullmode then 1 else 2) (if ccw cullmode then 3 else 2)
      (if ccw cullmode then 2 else 3) j
    have hlen : 6 * j + 5 < 6 * (N / 4) + (if N % 4 = 0 then 0 else 3) := by
      split <;> omega
    refine ⟨?_, ?_, ?_, ?_, ?_, ?_⟩
    · rw [fill_inside _ _ _ _ _ (by omega), e0]
      exact u16_u32_of_lt _ (by omega)
    · rw [Nat.add_assoc, fill_inside _ _ _ _ _ (by omega), e1]
      exact u16_u32_of_lt _ (by omega)
    · rw [Nat.add_assoc, fill_inside _ _ _ _ _ (by omega), e2]
      exact u16_u32_of_lt _ (by omega)
    · rw [Nat.add_assoc, fill_inside _ _ _ _ _ (by omega), e3]
      exact u16_u32_of_lt _ (by omega)
    · rw [Nat.add_assoc, fill_inside _ _ _ _ _ (by omega), e4]
      exact u16_u32_of_lt _ (by omega)
    · rw [Nat.add_assoc, fill_inside _ _ _ _ _ (by omega), e5]
      exact u16_u32_of_lt _ (by omega)
  · intro hr
    obtain ⟨e0, e1, e2, -, -, -⟩ := AddQuads_value_at B (if ccw cullmode then 2 else 1)
      (if ccw cullmode then 1 else 2) (if ccw cullmode then 3 else 2)
      (if ccw cullmode then 2 else 3) (N / 4)
    have hlen : 6 * (N / 4) + 2 < 6 * (N / 4) + (if N % 4 = 0 then 0 else 3) := by
      rw [if_neg hr]; omega
    refine ⟨?_, ?_, ?_⟩
    · rw [fill_inside _ _ _ _ _ (by omega), e0]
      exact u16_u32_of_lt _ (by omega)
    · rw [Nat.add_assoc, fill_inside _ _ _ _ _ (by omega), e1]
      exact u16_u32_of_lt _ (by omega)
    · rw [Nat.add_assoc, fill_inside _ _ _ _ _ (by omega), e2]
      exact u16_u32_of_lt _ (by omega)
  · intro a ha
    exact fill_outside _ _ _ _ _ ha

/-! ## Triangle lists (C3) -/

/-- C3, at the failing inputs `N = 4`, `B = 0` and `N = 1`, `B = 65533`: the loop
`for (i = 0; i < num_verts; i += 3)` also runs for a last group of fewer than three
vertices. For `N = 4` it runs for `i = 0` and `i = 3`, so the TriangleList expander appends
6 indices, the second triple being `(3, 4, 5)` with `4 = B + N` and `5 = B + N + 1` past the
vertices of the draw, and no run appends exactly `3 * (4 / 3) = 3` indices, as the claim
has it. For `N = 1` at base index 65533 (where `B + N ≤ 65534`) it appends
`(65533, 65534, 65535)`. -/
theorem AddList_remainder_one :
    (∃ mem' : Mem,
      AddList 3 CullMode.Back (fun _ => 0) 0 4 0 = some (mem', 6) ∧
      mem' 3 = 3 ∧ mem' 4 = 4 ∧ mem' 5 = 5) ∧
    (¬ ∃ fuel mem', AddList fuel CullMode.Back (fun _ => 0) 0 4 0
        = some (mem', 0 + 3 * (4 / 3))) ∧
    (∃ mem' : Mem,
      AddList 2 CullMode.Back (fun _ => 0) 0 1 65533 = some (mem', 3) ∧
      mem' 0 = 65533 ∧ mem' 1 = 65534 ∧ mem' 2 = 65535) := by
  have run4 := AddList_run 3 CullMode.Back (fun _ => 0) 0 4 0 (by decide) (by decide)
  have run1 := AddList_run 2 CullMode.Back (fun _ => 0) 0 1 65533 (by decide) (by decide)
  refine ⟨⟨_, run4, ?_, ?_, ?_⟩, ?_, ⟨_, run1, ?_, ?_, ?_⟩⟩
  · exact (fill_inside _ 0 _ _ 3 (by decide)).trans (by decide)
  · exact (fill_inside _ 0 _ _ 4 (by decide)).trans (by decide)
  · exact (fill_inside _ 0 _ _ 5 (by decide)).trans (by decide)
  · rintro ⟨fuel, mem', h⟩
    have := m_primitive_table_unique Primitive.GX_DRAW_TRIANGLES fuel 3
      CullMode.Back (fun _ => 0) 0 4 0 _ _ h run4
    have h2 : 0 + 3 * (4 / 3) = 0 + 3 * ((4 + 2) / 3) := congrArg Prod.snd this
    revert h2
    decide
  · exact (fill_inside _ 0 _ _ 0 (by decide)).trans (by decide)
  · exact (fill_inside _ 0 _ _ 1 (by decide)).trans (by decide)
  · exact (fill_inside _ 0 _ _ 2 (by decide)).trans (by decide)

/-- On whole triples the list expander is as specified: for `N` a multiple of 3 and
`B + N ≤ 65534` it appends exactly `3 * (N / 3) = N` indices, the triple started at
`i = 0, 3, 6, ... < N` being `(B + i, B + i + v1, B + i + v2)` with `(v1, v2) = (2, 1)` under
front-face culling and `(1, 2)` otherwise. -/
theorem AddList_appends_of_whole_triples (fuel : Nat) (cullmode : CullMode) (mem : Mem)
    (index_ptr N B : Nat) (hN3 : N % 3 = 0) (hB : B + N ≤ 65534) (hfuel : N < fuel) :
    ∃ mem' : Mem,
      AddList fuel cullmode mem index_ptr N B = some (mem', index_ptr + 3 * (N / 3)) ∧
      (∀ j, 3 * j < N →
        mem' (index_ptr + 3 * j) = B + 3 * j ∧
        mem' (index_ptr + 3 * j + 1) = B + 3 * j + (if ccw cullmode then 2 else 1) ∧
        mem' (index_ptr + 3 * j + 2) = B + 3 * j + (if ccw cullmode then 1 else 2)) ∧
      (∀ a, a < index_ptr ∨ index_ptr + 3 * (N / 3) ≤ a → mem' a = mem a) := by
  have hrun := AddList_run fuel cullmode mem index_ptr N B (by omega) (by omega)
  have hcount : 3 * ((N + 2) / 3) = 3 * (N / 3) := by omega
  rw [hcount] at hrun
  have hv1 : (if ccw cullmode then 2 else 1) ≤ 2 := by split <;> omega
  have hv2 : (if ccw cullmode then 1 else 2) ≤ 2 := by split <;> omega
  refine ⟨_, hrun, ?_, ?_⟩
  · intro j hj
    refine ⟨?_, ?_, ?_⟩
    · rw [fill_inside _ _ _ _ _ (by omega), AddList_value_zero]
      exact u16_u32_of_lt _ (by omega)
    · rw [Nat.add_assoc, fill_inside _ _ _ _ _ (by omega), AddList_value_one]
      exact u16_u32_of_lt _ (by omega)
    · rw [Nat.add_assoc, fill_inside _ _ _ _ _ (by omega), AddList_value_two]
      exact u16_u32_of_lt _ (by omega)
  · intro a ha
    exact fill_outside _ _ _ _ _ ha

/-! ## Line lists (C5) -/

/-- C5, at the failing input `N = 5`, `B = 0`: the loop `for (i = 0; i < num_verts; i += 2)`
also runs for the unpaired last vertex, `i = 0, 2, 4`, so the LineList expander appends 6
indices, the last pair being `(4, 5)` with `5 = B + N` past the vertices of the draw, and no
run appends exactly `2 * (5 / 2) = 4` indices, as the claim has it. -/
theorem AddLineList_odd_count :
    (∃ mem' : Mem,
      AddLineList 4 (fun _ => 0) 0 5 0 = some (mem', 6) ∧ mem' 4 = 4 ∧ mem' 5 = 5) ∧
    ¬ ∃ fuel mem', AddLineList fuel (fun _ => 0) 0 5 0 = some (mem', 0 + 2 * (5 / 2)) := by
  have run5 := AddLineList_run 4 (fun _ => 0) 0 5 0 (by decide) (by decide)
  refine ⟨⟨_, run5, ?_, ?_⟩, ?_⟩
  · exact (fill_inside _ 0 _ _ 4 (by decide)).trans (by decide)
  · exact (fill_inside _ 0 _ _ 5 (by decide)).trans (by decide)
  · rintro ⟨fuel, mem', h⟩
    have := m_primitive_table_unique Primitive.GX_DRAW_LINES fuel 4
      CullMode.Back (fun _ => 0) 0 5 0 _ _ h run5
    have h2 : 0 + 2 * (5 / 2) = 0 + 2 * ((5 + 1) / 2) := congrArg Prod.snd this
    revert h2
    decide

/-- On whole pairs the line-list expander is as specified: for `N` even and
`B + N ≤ 65534` it appends exactly `2 * (N / 2) = N` indices, the pairs `(B + i, B + i + 1)`
for `i = 0, 2, 4, ... < N`. -/
theorem AddLineList_appends_of_even (fuel : Nat) (mem : Mem) (index_ptr N B : Nat)
    (hN2 : N % 2 = 0) (hB : B + N ≤ 65534) (hfuel : N < fuel) :
    ∃ mem' : Mem,
      AddLineList fuel mem index_ptr N B = some (mem', index_ptr + 2 * (N / 2)) ∧
      (∀ j, 2 * j < N →
        mem' (index_ptr + 2 * j) = B + 2 * j ∧
        mem' (index_ptr + 2 * j + 1) = B + 2 * j + 1) ∧
      (∀ a, a < index_ptr ∨ index_ptr + 2 * (N / 2) ≤ a → mem' a = mem a) := by
  have hrun := AddLineList_run fuel mem index_ptr N B (by omega) (by omega)
  have hcount : 2 * ((N + 1) / 2) = 2 * (N / 2) := by omega
  rw [hcount] at hrun
  refine ⟨_, hrun, ?_, ?_⟩
  · intro j hj
    have h1 : 2 * j % 2 = 0 := by omega
    have h2 : 2 * j / 2 = j := by omega
    have h3 : (2 * j + 1) % 2 = 1 := by omega
    have h4 : (2 * j + 1) / 2 = j := by omega
    refine ⟨?_, ?_⟩
    · rw [fill_inside _ _ _ _ _ (by omega)]
      simp only [AddLineList.value, h1, h2, if_true]
      exact u16_u32_of_lt _ (by omega)
    · rw [Nat.add_assoc, fill_inside _ _ _ _ _ (by omega)]
      simp only [AddLineList.value, h3, h4]
      exact u16_u32_of_lt _ (by omega)
  · intro a ha
    exact fill_outside _ _ _ _ _ ha

/-! ## Which calls return -/

theorem m_primitive_table_returns (primitive : Primitive) (fuel : Nat) (cullmode : CullMode)
    (mem : Mem) (index_ptr num_verts index : Nat) (hN : num_verts < 4294967296)
    (hex : ¬ (primitive = Primitive.GX_DRAW_LINES ∧ num_verts = 4294967295))
    (hfuel : 4294967296 ≤ fuel) :
    ∃ r, m_primitive_table primitive fuel cullmode mem index_ptr num_verts index = some r := by
  have hsub1 : u32sub num_verts 1 < 4294967296 := Nat.mod_lt _ (by norm_num)
  have hsub2 : u32sub num_verts 2 < 4294967296 := Nat.mod_lt _ (by norm_num)
  cases primitive
  · exact ⟨_, AddQuads_run fuel cullmode mem index_ptr num_verts index hN (by omega)⟩
  · exact ⟨_, AddQuads_run fuel cullmode mem index_ptr num_verts index hN (by omega)⟩
  · exact ⟨_, AddList_run fuel cullmode mem index_ptr num_verts index hN (by omega)⟩
  · exact ⟨_, AddStrip_run fuel cullmode mem index_ptr num_verts index (by omega)⟩
  · refine ⟨_, AddFan_run fuel cullmode mem index_ptr num_verts index _ rfl ?_⟩
    split <;> omega
  · have hne : num_verts ≠ 4294967295 := fun h => hex ⟨rfl, h⟩
    exact ⟨_, AddLineList_run fuel mem index_ptr num_verts index (by omega) (by omega)⟩
  · exact ⟨_, AddLineStrip_run fuel mem index_ptr num_verts index (by omega)⟩
  · exact ⟨_, AddPoints_run fuel mem index_ptr num_verts index hN (by omega)⟩

theorem AddLineList_diverges (fuel : Nat) (mem : Mem) (index_ptr index : Nat) :
    AddLineList fuel mem index_ptr 4294967295 index = none := by
  unfold AddLineList
  rw [whileLoop_diverges _ (AddLineList.body index)
    (fun s => s.i % 2 = 0 ∧ s.i < 4294967296) _ fuel ⟨0, mem, index_ptr⟩ ⟨rfl, by norm_num⟩]
  · rfl
  · intro s hs
    refine ⟨?_, ?_⟩
    · simp only [decide_eq_true_eq]
      omega
    · simp only [AddLineList.body, LoopState.put, u32]
      omega

theorem AddIndices_returns (fuel : Nat) (cullmode : CullMode) (primitive : Primitive)
    (N : Nat) (w : Mem × IndexGenerator)
    (hret : (Call.AddIndices cullmode primitive N).returns = true)
    (hfuel : 4294967296 ≤ fuel) :
    ∃ w', IndexGenerator.AddIndices fuel cullmode primitive N w = some w' := by
  simp only [Call.returns, Bool.and_eq_true, decide_eq_true_eq, Bool.not_eq_true',
    Bool.and_eq_false_imp] at hret
  obtain ⟨r, hr⟩ := m_primitive_table_returns primitive fuel cullmode w.1
    w.2.m_index_buffer_current N w.2.m_base_index hret.1
    (fun h => by have := hret.2 h.1; simp [h.2] at this) hfuel
  refine ⟨(r.1, { w.2 with m_index_buffer_current := r.2,
                           m_base_index := u32 (w.2.m_base_index + N) }), ?_⟩
  simp only [IndexGenerator.AddIndices, hr, Option.map_some']

theorem AddIndices_base (fuel : Nat) (cullmode : CullMode) (primitive : Primitive)
    (N : Nat) (w w' : Mem × IndexGenerator)
    (h : IndexGenerator.AddIndices fuel cullmode primitive N w = some w') :
    w'.2.m_base_index = u32 (w.2.m_base_index + N) ∧
    w'.2.m_base_index_ptr = w.2.m_base_index_ptr := by
  simp only [IndexGenerator.AddIndices, Option.map_eq_some'] at h
  obtain ⟨r, -, hr⟩ := h
  rw [← hr]
  exact ⟨rfl, rfl⟩

theorem Call_run_base (fuel : Nat) (c : Call) (w w' : Mem × IndexGenerator)
    (h : c.run fuel w = some w') :
    w'.2.m_base_index = u32 (w.2.m_base_index + c.vertices) := by
  cases c with
  | AddIndices cullmode primitive num_vertices =>
    exact (AddIndices_base fuel cullmode primitive num_vertices w w' h).1
  | AddExternalIndices indices num_indices num_vertices =>
    simp only [Call.run, Option.some.injEq] at h
    rw [← h]
    rfl

theorem runCalls_base (fuel : Nat) (calls : List Call) :
    ∀ (w w' : Mem × IndexGenerator), runCalls fuel w calls = some w' →
      w'.2.m_base_index = u32 (w.2.m_base_index + consumed calls) ∨
      (calls = [] ∧ w' = w) := by
  induction calls with
  | nil =>
    intro w w' h
    simp only [runCalls, Option.some.injEq] at h
    exact Or.inr ⟨rfl, h.symm⟩
  | cons c cs ih =>
    intro w w' h
    simp only [runCalls, Option.bind_eq_some] at h
    obtain ⟨w1, h1, h2⟩ := h
    have hb := Call_run_base fuel c w w1 h1
    left
    have hcons : consumed (c :: cs) = c.vertices + consumed cs := by
      simp [consumed]
    rcases ih w1 w' h2 with h3 | ⟨h3, h4⟩
    · rw [h3, hb, hcons]
      simp only [u32]
      omega
    · rw [h4, hb, hcons, h3]
      simp [consumed]

theorem runCalls_returns (fuel : Nat) (hfuel : 4294967296 ≤ fuel) (calls : List Call) :
    ∀ (w : Mem × IndexGenerator), (∀ c ∈ calls, c.returns = true) →
      ∃ w', runCalls fuel w calls = some w' := by
  induction calls with
  | nil => intro w _; exact ⟨w, rfl⟩
  | cons c cs ih =>
    intro w hret
    have hc : c.returns = true := hret c (List.mem_cons_self _ _)
    have hcs : ∀ d ∈ cs, d.returns = true := fun d hd => hret d (List.mem_cons_of_mem _ hd)
    have h1 : ∃ w1, c.run fuel w = some w1 := by
      cases c with
      | AddIndices cullmode primitive num_vertices =>
        exact AddIndices_returns fuel cullmode primitive num_vertices w hc hfuel
      | AddExternalIndices indices num_indices num_vertices => exact ⟨_, rfl⟩
    obtain ⟨w1, hw1⟩ := h1
    obtain ⟨w', hw'⟩ := ih w1 hcs
    exact ⟨w', by simp only [runCalls, hw1, Option.some_bind, hw']⟩

/-! ## The running base index (C8) -/

/-- C8 fails in `u32` arithmetic and for the one call that does not return: with
`m_base_index = 0xFFFFFFFF`, `AddIndices(GX_DRAW_POINTS, 1)` leaves `m_base_index = 0`; that
state is reached from `Start` by `AddExternalIndices(_, 0, 0xFFFFFFFF)`, after which the
vertex counts sum to 4294967296 while `m_base_index` is 0; and
`AddIndices(GX_DRAW_LINES, 0xFFFFFFFF)` returns for no loop budget. -/
theorem AddIndices_base_index_counterexample :
    (IndexGenerator.AddIndices 2 CullMode.Back Primitive.GX_DRAW_POINTS 1
        (fun _ => 0, ⟨0, 0, 4294967295⟩)).map (fun w => w.2.m_base_index) = some 0 ∧
    (runCalls 2 (fun _ => 0, IndexGenerator.Start ⟨0, 0, 0⟩ 0)
        [Call.AddExternalIndices 0 0 4294967295,
         Call.AddIndices CullMode.Back Primitive.GX_DRAW_POINTS 1]).map
      (fun w => w.2.m_base_index) = some 0 ∧
    consumed [Call.AddExternalIndices 0 0 4294967295,
         Call.AddIndices CullMode.Back Primitive.GX_DRAW_POINTS 1] = 4294967296 ∧
    (∀ fuel cullmode w,
      IndexGenerator.AddIndices fuel cullmode Primitive.GX_DRAW_LINES 4294967295 w = none) := by
  refine ⟨by decide, by decide, by decide, ?_⟩
  intro fuel cullmode w
  simp only [IndexGenerator.AddIndices, m_primitive_table, AddLineList_diverges, Option.map_none']

/-- C8 as amended: for every topology, cull mode, session state and `u32` vertex count,
LineList with `0xFFFFFFFF` vertices excepted, `AddIndices` returns, and every returning run
leaves `m_base_index = (m_base_index + vertexCount) mod 2^32`, which is an increase by exactly
`vertexCount` whenever that sum is below `2^32`, whatever the expander stored; consequently
after `Start` and any sequence of returning `AddIndices` / `AddExternalIndices` calls
`m_base_index` is the sum of the vertex counts passed since that `Start`, modulo `2^32`. -/
theorem AddIndices_base_index (cullmode : CullMode) (primitive : Primitive) (N : Nat)
    (mem : Mem) (g : IndexGenerator) (hN : N < 4294967296)
    (hex : ¬ (primitive = Primitive.GX_DRAW_LINES ∧ N = 4294967295)) :
    (∃ w', IndexGenerator.AddIndices 4294967296 cullmode primitive N (mem, g) = some w') ∧
    (∀ fuel w', IndexGenerator.AddIndices fuel cullmode primitive N (mem, g) = some w' →
      w'.2.m_base_index = (g.m_base_index + N) % 4294967296 ∧
      (g.m_base_index + N < 4294967296 → w'.2.m_base_index = g.m_base_index + N)) ∧
    (∀ (calls : List Call) (index_ptr : Nat), (∀ c ∈ calls, c.returns = true) →
      (∃ w', runCalls 4294967296 (mem, g.Start index_ptr) calls = some w') ∧
      (∀ fuel w', runCalls fuel (mem, g.Start index_ptr) calls = some w' →
        w'.2.m_base_index = consumed calls % 4294967296 ∧
        (consumed calls < 4294967296 → w'.2.m_base_index = consumed calls))) := by
  refine ⟨?_, ?_, ?_⟩
  · apply AddIndices_returns _ _ _ _ _ _ (le_refl _)
    simp only [Call.returns, Bool.and_eq_true, decide_eq_true_eq, Bool.not_eq_true',
      Bool.and_eq_false_imp, decide_eq_false_iff_not]
    exact ⟨hN, fun h1 h2 => hex ⟨h1, h2⟩⟩
  · intro fuel w' h
    have hb := (AddIndices_base fuel cullmode primitive N (mem, g) w' h).1
    refine ⟨hb, fun hlt => ?_⟩
    rw [hb]
    exact u32_of_lt _ hlt
  · intro calls index_ptr hret
    refine ⟨runCalls_returns _ (le_refl _) calls _ hret, ?_⟩
    intro fuel w' h
    have hsum : w'.2.m_base_index = consumed calls % 4294967296 := by
      rcases runCalls_base fuel calls _ w' h with h1 | ⟨h1, h2⟩
      · rw [h1]
        simp [IndexGenerator.Start, u32]
      · rw [h2, h1]
        rfl
    refine ⟨hsum, fun hlt => ?_⟩
    rw [hsum]
    exact Nat.mod_eq_of_lt hlt

theorem AddIndices_base_index_witness :
    4 < 4294967296 ∧ ¬ (Primitive.GX_DRAW_TRIANGLES = Primitive.GX_DRAW_LINES ∧ 4 = 4294967295) ∧
    ((∃ w', IndexGenerator.AddIndices 4294967296 CullMode.Back Primitive.GX_DRAW_TRIANGLES 4
        (fun _ => 0, ⟨0, 0, 7⟩) = some w') ∧
    (∀ fuel w', IndexGenerator.AddIndices fuel CullMode.Back Primitive.GX_DRAW_TRIANGLES 4
        (fun _ => 0, ⟨0, 0, 7⟩) = some w' →
      w'.2.m_base_index = ((⟨0, 0, 7⟩ : IndexGenerator).m_base_index + 4) % 4294967296 ∧
      ((⟨0, 0, 7⟩ : IndexGenerator).m_base_index + 4 < 4294967296 →
        w'.2.m_base_index = (⟨0, 0, 7⟩ : IndexGenerator).m_base_index + 4)) ∧
    (∀ (calls : List Call) (index_ptr : Nat), (∀ c ∈ calls, c.returns = true) →
      (∃ w', runCalls 4294967296 (fun _ => 0, (⟨0, 0, 7⟩ : IndexGenerator).Start index_ptr)
        calls = some w') ∧
      (∀ fuel w', runCalls fuel (fun _ => 0, (⟨0, 0, 7⟩ : IndexGenerator).Start index_ptr)
          calls = some w' →
        w'.2.m_base_index = consumed calls % 4294967296 ∧
        (consumed calls < 4294967296 → w'.2.m_base_index = consumed calls)))) :=
  ⟨by decide, by decide,
    AddIndices_base_index CullMode.Back Primitive.GX_DRAW_TRIANGLES 4 (fun _ => 0) ⟨0, 0, 7⟩
      (by decide) (by decide)⟩

/-! ## Remaining capacity (C9) -/

/-- C9 fails once more than 65534 vertices have been passed: after `Start` and
`AddIndices(GX_DRAW_POINTS, 65535)` the session has consumed `V = 65535` vertices and
`GetRemainingIndices` returns 4294967295, not `65534 - V`. -/
theorem GetRemainingIndices_counterexample :
    ∃ w', runCalls 65536 (fun _ => 0, IndexGenerator.Start ⟨0, 0, 0⟩ 0)
        [Call.AddIndices CullMode.Back Primitive.GX_DRAW_POINTS 65535] = some w' ∧
      consumed [Call.AddIndices CullMode.Back Primitive.GX_DRAW_POINTS 65535] = 65535 ∧
      w'.2.GetRemainingIndices = 4294967295 ∧
      (w'.2.GetRemainingIndices : Int)
        ≠ 65534 - (consumed [Call.AddIndices CullMode.Back Primitive.GX_DRAW_POINTS 65535] : Int) := by
  have hrun := AddPoints_run 65536 (fun _ => 0) 0 65535 0 (by decide) (by decide)
  refine ⟨(fill (fun _ => 0) 0 65535 (AddPoints.value 0), ⟨0 + 65535, 0, u32 (0 + 65535)⟩),
    ?_, by decide, by decide, by decide⟩
  simp only [runCalls, Call.run, IndexGenerator.AddIndices, m_primitive_table,
    IndexGenerator.Start, hrun, Option.map_some', Option.some_bind]

/-- C9 as amended: for every session, `Start` followed by any sequence of returning
`AddIndices` / `AddExternalIndices` calls returns, and when the calls consumed `V` vertices
in total `GetRemainingIndices` returns `(65534 - V) mod 2^32`, which is exactly `65534 - V`
whenever `V ≤ 65534`. -/
theorem GetRemainingIndices_after_session (mem : Mem) (g : IndexGenerator) (index_ptr : Nat)
    (calls : List Call) (hret : ∀ c ∈ calls, c.returns = true) :
    (∃ w', runCalls 4294967296 (mem, g.Start index_ptr) calls = some w') ∧
    (∀ fuel w', runCalls fuel (mem, g.Start index_ptr) calls = some w' →
      (w'.2.GetRemainingIndices : Int) = (65534 - (consumed calls : Int)) % 4294967296 ∧
      (consumed calls ≤ 65534 → w'.2.GetRemainingIndices = 65534 - consumed calls)) := by
  refine ⟨runCalls_returns _ (le_refl _) calls _ hret, ?_⟩
  intro fuel w' h
  have hsum : w'.2.m_base_index = consumed calls % 4294967296 := by
    rcases runCalls_base fuel calls _ w' h with h1 | ⟨h1, h2⟩
    · rw [h1]
      simp [IndexGenerator.Start, u32]
    · rw [h2, h1]
      rfl
  simp only [IndexGenerator.GetRemainingIndices, u32sub, u32, hsum]
  refine ⟨?_, fun hle => ?_⟩
  · omega
  · omega

theorem GetRemainingIndices_after_session_witness :
    (∀ c ∈ [Call.AddIndices CullMode.Front Primitive.GX_DRAW_QUADS 7,
            Call.AddExternalIndices 100 5 5], c.returns = true) ∧
    ((∃ w', runCalls 4294967296 (fun _ => 0, (⟨0, 0, 0⟩ : IndexGenerator).Start 0)
        [Call.AddIndices CullMode.Front Primitive.GX_DRAW_QUADS 7,
         Call.AddExternalIndices 100 5 5] = some w') ∧
    (∀ fuel w', runCalls fuel (fun _ => 0, (⟨0, 0, 0⟩ : IndexGenerator).Start 0)
        [Call.AddIndices CullMode.Front Primitive.GX_DRAW_QUADS 7,
         Call.AddExternalIndices 100 5 5] = some w' →
      (w'.2.GetRemainingIndices : Int)
        = (65534 - (consumed [Call.AddIndices CullMode.Front Primitive.GX_DRAW_QUADS 7,
            Call.AddExternalIndices 100 5 5] : Int)) % 4294967296 ∧
      (consumed [Call.AddIndices CullMode.Front Primitive.GX_DRAW_QUADS 7,
          Call.AddExternalIndices 100 5 5] ≤ 65534 →
        w'.2.GetRemainingIndices
          = 65534 - consumed [Call.AddIndices CullMode.Front Primitive.GX_DRAW_QUADS 7,
              Call.AddExternalIndices 100 5 5]))) :=
  ⟨by decide,
    GetRemainingIndices_after_session (fun _ => 0) ⟨0, 0, 0⟩ 0
      [Call.AddIndices CullMode.Front Primitive.GX_DRAW_QUADS 7,
       Call.AddExternalIndices 100 5 5] (by decide)⟩

/-! ## The reserved index 65535 (C10) -/

/-- C10, at a failing session: after `Start`, `AddIndices(GX_DRAW_POINTS, 65533)` is within
the remaining capacity 65534 and leaves a remaining capacity of 1; the next call
`AddIndices(GX_DRAW_QUADS, 1)` is within that capacity, and its remainder triangle stores
`(65533, 65534, 65535)`: the value 65535 is written to the buffer. -/
theorem AddIndices_writes_65535 :
    ∃ w1 w2 : Mem × IndexGenerator,
      65533 ≤ (IndexGenerator.Start ⟨0, 0, 0⟩ 0).GetRemainingIndices ∧
      IndexGenerator.AddIndices 65534 CullMode.Back Primitive.GX_DRAW_POINTS 65533
        (fun _ => 0, IndexGenerator.Start ⟨0, 0, 0⟩ 0) = some w1 ∧
      w1.2.m_base_index = 65533 ∧
      w1.2.GetRemainingIndices = 1 ∧
      IndexGenerator.AddIndices 65534 CullMode.Back Primitive.GX_DRAW_QUADS 1 w1 = some w2 ∧
      w2.2.m_index_buffer_current = w1.2.m_index_buffer_current + 3 ∧
      w2.1 (w1.2.m_index_buffer_current) = 65533 ∧
      w2.1 (w1.2.m_index_buffer_current + 1) = 65534 ∧
      w2.1 (w1.2.m_index_buffer_current + 2) = 65535 := by
  have hp := AddPoints_run 65534 (fun _ => 0) 0 65533 0 (by decide) (by decide)
  have hq := AddQuads_run 65534 CullMode.Back (fill (fun _ => 0) 0 65533 (AddPoints.value 0))
    (0 + 65533) 1 (u32 (0 + 65533)) (by decide) (by decide)
  refine ⟨(fill (fun _ => 0) 0 65533 (AddPoints.value 0), ⟨0 + 65533, 0, u32 (0 + 65533)⟩),
    (fill (fill (fun _ => 0) 0 65533 (AddPoints.value 0)) (0 + 65533)
        (6 * (1 / 4) + if 1 % 4 = 0 then 0 else 3)
        (AddQuads.value (u32 (0 + 65533)) (if ccw CullMode.Back then 2 else 1)
          (if ccw CullMode.Back then 1 else 2) (if ccw CullMode.Back then 3 else 2)
          (if ccw CullMode.Back then 2 else 3)),
      ⟨0 + 65533 + (6 * (1 / 4) + if 1 % 4 = 0 then 0 else 3), 0,
      u32 (u32 (0 + 65533) + 1)⟩), by decide, ?h1, by decide, by decide, ?h2, ?h3, ?h4, ?h5, ?h6⟩
  case h2 =>
    simp only [IndexGenerator.AddIndices, m_primitive_table, hq, Option.map_some']
  case h1 =>
    simp only [IndexGenerator.AddIndices, m_primitive_table, IndexGenerator.Start, hp,
      Option.map_some']
  case h3 => decide
  case h4 =>
    refine (fill_inside (fill (fun _ => 0) 0 65533 (AddPoints.value 0)) (0 + 65533)
      (6 * (1 / 4) + if 1 % 4 = 0 then 0 else 3) (AddQuads.value (u32 (0 + 65533)) 1 2 2 3)
      0 (by decide)).trans ?_
    decide
  case h5 =>
    refine (fill_inside (fill (fun _ => 0) 0 65533 (AddPoints.value 0)) (0 + 65533)
      (6 * (1 / 4) + if 1 % 4 = 0 then 0 else 3) (AddQuads.value (u32 (0 + 65533)) 1 2 2 3)
      1 (by decide)).trans ?_
    decide
  case h6 =>
    refine (fill_inside (fill (fun _ => 0) 0 65533 (AddPoints.value 0)) (0 + 65533)
      (6 * (1 / 4) + if 1 % 4 = 0 then 0 else 3) (AddQuads.value (u32 (0 + 65533)) 1 2 2 3)
      2 (by decide)).trans ?_
    decide

/-! ## Every returning expander appends `emitted` indices -/

theorem m_primitive_table_emitted (primitive : Primitive) (fuel : Nat) (cullmode : CullMode)
    (mem : Mem) (index_ptr num_verts index : Nat) (hN : num_verts < 4294967296)
    (hex : ¬ (primitive = Primitive.GX_DRAW_LINES ∧ num_verts = 4294967295))
    (hfuel : 4294967296 ≤ fuel) :
    ∃ g : Nat → Nat,
      m_primitive_table primitive fuel cullmode mem index_ptr num_verts index
        = some (fill mem index_ptr (emitted primitive num_verts) g,
            index_ptr + emitted primitive num_verts) := by
  have hsub1 : u32sub num_verts 1 < 4294967296 := Nat.mod_lt _ (by norm_num)
  have hsub2 : u32sub num_verts 2 < 4294967296 := Nat.mod_lt _ (by norm_num)
  cases primitive
  · exact ⟨_, AddQuads_run fuel cullmode mem index_ptr num_verts index hN (by omega)⟩
  · exact ⟨_, AddQuads_run fuel cullmode mem index_ptr num_verts index hN (by omega)⟩
  · exact ⟨_, AddList_run fuel cullmode mem index_ptr num_verts index hN (by omega)⟩
  · exact ⟨_, AddStrip_run fuel cullmode mem index_ptr num_verts index (by omega)⟩
  · refine ⟨_, AddFan_run fuel cullmode mem index_ptr num_verts index _ rfl ?_⟩
    split <;> omega
  · have hne : num_verts ≠ 4294967295 := fun h => hex ⟨rfl, h⟩
    exact ⟨_, AddLineList_run fuel mem index_ptr num_verts index (by omega) (by omega)⟩
  · exact ⟨_, AddLineStrip_run fuel mem index_ptr num_verts index (by omega)⟩
  · exact ⟨_, AddPoints_run fuel mem index_ptr num_verts index hN (by omega)⟩

/-- C11 fails for the fan: with `num_verts = 0` the guard `num_verts < 3 ? 1 : num_verts - 2`
makes `AddFan` run once, so `AddIndices(GX_DRAW_TRIANGLE_FAN, 0)` at write position 10 and
base index 0 stores the triangle `(0, 1, 2)` and moves the write position to 13. -/
theorem AddIndices_zero_fan_counterexample :
    (IndexGenerator.AddIndices 2 CullMode.Back Primitive.GX_DRAW_TRIANGLE_FAN 0
        (fun _ => 9, ⟨10, 10, 0⟩)).map
      (fun w => (w.2.m_index_buffer_current, w.2.m_base_index, w.1 10, w.1 11, w.1 12))
      = some (13, 0, 0, 1, 2) := by
  decide

/-- C11 as amended: for Quads, QuadsAlt, TriangleList, LineList and Points, every cull mode
and every session state (with a `u32` base index), `AddIndices(topology, 0)` returns having
stored nothing: memory, write position and base index are unchanged. For TriangleFan it
returns having appended exactly 3 indices (one triangle): the write position advances by 3,
nothing outside those 3 elements is changed, and the base index is unchanged. -/
theorem AddIndices_zero_vertices (fuel : Nat) (cullmode : CullMode) (primitive : Primitive)
    (mem : Mem) (g : IndexGenerator) (hfuel : 2 ≤ fuel)
    (hbase : g.m_base_index < 4294967296) :
    (primitive = Primitive.GX_DRAW_QUADS ∨ primitive = Primitive.GX_DRAW_QUADS_2 ∨
      primitive = Primitive.GX_DRAW_TRIANGLES ∨ primitive = Primitive.GX_DRAW_LINES ∨
      primitive = Primitive.GX_DRAW_POINTS →
        IndexGenerator.AddIndices fuel cullmode primitive 0 (mem, g) = some (mem, g)) ∧
    (primitive = Primitive.GX_DRAW_TRIANGLE_FAN →
      ∃ mem' : Mem,
        IndexGenerator.AddIndices fuel cullmode primitive 0 (mem, g)
          = some (mem', { g with m_index_buffer_current := g.m_index_buffer_current + 3 }) ∧
        (∀ a, a < g.m_index_buffer_current ∨ g.m_index_buffer_current + 3 ≤ a →
          mem' a = mem a)) := by
  obtain ⟨cur, start, base⟩ := g
  have hb : u32 (base + 0) = base := u32_of_lt _ hbase
  refine ⟨?_, ?_⟩
  · intro hp
    have key : ∀ (r : Option (Mem × Nat)) (n : Nat) (g' : Nat → Nat), n = 0 →
        r = some (fill mem cur n g', cur + n) →
        r.map (fun r => (r.1, (⟨r.2, start, u32 (base + 0)⟩ : IndexGenerator)))
          = some (mem, ⟨cur, start, base⟩) := by
      intro r n g' hn hr
      subst hn
      rw [hr, Option.map_some', fill_zero, hb]
      rfl
    rcases hp with h | h | h | h | h <;> subst h <;>
      simp only [IndexGenerator.AddIndices, m_primitive_table, AddQuads_nonstandard]
    · exact key _ _ _ (by decide)
        (AddQuads_run fuel cullmode mem cur 0 base (by norm_num) (by omega))
    · exact key _ _ _ (by decide)
        (AddQuads_run fuel cullmode mem cur 0 base (by norm_num) (by omega))
    · exact key _ _ _ (by decide)
        (AddList_run fuel cullmode mem cur 0 base (by norm_num) (by omega))
    · exact key _ _ _ (by decide)
        (AddLineList_run fuel mem cur 0 base (by norm_num) (by omega))
    · exact key _ _ _ rfl
        (AddPoints_run fuel mem cur 0 base (by norm_num) (by omega))
  · intro hp
    subst hp
    have hrun := AddFan_run fuel cullmode mem cur 0 base 1 (by decide) (by omega)
    refine ⟨fill mem cur (3 * 1) (AddFan.value base (if ccw cullmode then 2 else 1)
      (if ccw cullmode then 1 else 2)), ?_, ?_⟩
    · simp only [IndexGenerator.AddIndices, m_primitive_table, hrun, Option.map_some', hb]
    · intro a ha
      exact fill_outside _ _ _ _ _ ha

theorem AddIndices_zero_vertices_witness :
    2 ≤ 2 ∧ (⟨10, 10, 6⟩ : IndexGenerator).m_base_index < 4294967296 ∧
    ((Primitive.GX_DRAW_TRIANGLES = Primitive.GX_DRAW_QUADS ∨
      Primitive.GX_DRAW_TRIANGLES = Primitive.GX_DRAW_QUADS_2 ∨
      Primitive.GX_DRAW_TRIANGLES = Primitive.GX_DRAW_TRIANGLES ∨
      Primitive.GX_DRAW_TRIANGLES = Primitive.GX_DRAW_LINES ∨
      Primitive.GX_DRAW_TRIANGLES = Primitive.GX_DRAW_POINTS →
        IndexGenerator.AddIndices 2 CullMode.Front Primitive.GX_DRAW_TRIANGLES 0
          (fun _ => 9, ⟨10, 10, 6⟩) = some (fun _ => 9, ⟨10, 10, 6⟩)) ∧
    (Primitive.GX_DRAW_TRIANGLES = Primitive.GX_DRAW_TRIANGLE_FAN →
      ∃ mem' : Mem,
        IndexGenerator.AddIndices 2 CullMode.Front Primitive.GX_DRAW_TRIANGLES 0
            (fun _ => 9, ⟨10, 10, 6⟩)
          = some (mem', { (⟨10, 10, 6⟩ : IndexGenerator) with
              m_index_buffer_current := (⟨10, 10, 6⟩ : IndexGenerator).m_index_buffer_current + 3 }) ∧
        (∀ a, a < (⟨10, 10, 6⟩ : IndexGenerator).m_index_buffer_current ∨
            (⟨10, 10, 6⟩ : IndexGenerator).m_index_buffer_current + 3 ≤ a →
          mem' a = (fun _ => 9) a))) :=
  ⟨by decide, by decide,
    AddIndices_zero_vertices 2 CullMode.Front Primitive.GX_DRAW_TRIANGLES (fun _ => 9)
      ⟨10, 10, 6⟩ (by decide) (by decide)⟩

/-! ## External indices (C12) -/

/-- C12 fails in `u32` arithmetic: after `Start` and `AddExternalIndices(_, 0, 0xFFFFFFFF)` the
base index is 4294967295, and `AddExternalIndices(idx, 5, 5)` then leaves the base index at 4
(the write position advances by 5, from 0 to 5). -/
theorem AddExternalIndices_base_counterexample :
    (IndexGenerator.AddExternalIndices 100 0 4294967295
      (fun a => a, IndexGenerator.Start ⟨0, 0, 0⟩ 0)).2.m_base_index = 4294967295 ∧
    (IndexGenerator.AddExternalIndices 100 5 5
      (IndexGenerator.AddExternalIndices 100 0 4294967295
        (fun a => a, IndexGenerator.Start ⟨0, 0, 0⟩ 0))).2.m_base_index = 4 ∧
    (IndexGenerator.AddExternalIndices 100 5 5
      (IndexGenerator.AddExternalIndices 100 0 4294967295
        (fun a => a, IndexGenerator.Start ⟨0, 0, 0⟩ 0))).2.m_index_buffer_current = 5 := by
  decide

/-- C12 as amended: for every session state, source array, `numIndices`, `numVertices` and
cull mode, `AddExternalIndices(idx, numIndices, numVertices)` stores the first `numIndices`
entries of `idx`, verbatim and in order, from the write position on and changes nothing
else in memory, advances the write position by `numIndices`, keeps the session start, and
leaves the base index at `(baseIndex + numVertices) mod 2^32`, an advance by exactly
`numVertices` whenever that sum is below `2^32`; the cull mode is not consulted. -/
theorem AddExternalIndices_appends (indices num_indices num_vertices : Nat) (mem : Mem)
    (g : IndexGenerator) :
    (∀ k, k < num_indices →
      (IndexGenerator.AddExternalIndices indices num_indices num_vertices (mem, g)).1
        (g.m_index_buffer_current + k) = mem (indices + k)) ∧
    (∀ a, a < g.m_index_buffer_current ∨ g.m_index_buffer_current + num_indices ≤ a →
      (IndexGenerator.AddExternalIndices indices num_indices num_vertices (mem, g)).1 a
        = mem a) ∧
    (IndexGenerator.AddExternalIndices indices num_indices num_vertices (mem, g)).2
      = ⟨g.m_index_buffer_current + num_indices, g.m_base_index_ptr,
          (g.m_base_index + num_vertices) % 4294967296⟩ ∧
    (g.m_base_index + num_vertices < 4294967296 →
      (IndexGenerator.AddExternalIndices indices num_indices num_vertices (mem, g)).2.m_base_index
        = g.m_base_index + num_vertices) ∧
    (∀ fuel, (Call.AddExternalIndices indices num_indices num_vertices).run fuel (mem, g)
      = some (IndexGenerator.AddExternalIndices indices num_indices num_vertices (mem, g))) := by
  refine ⟨?_, ?_, rfl, ?_, fun _ => rfl⟩
  · intro k hk
    simp only [IndexGenerator.AddExternalIndices]
    rw [if_pos ⟨by omega, by omega⟩]
    congr 1
    omega
  · intro a ha
    simp only [IndexGenerator.AddExternalIndices]
    rw [if_neg (by omega)]
  · intro hlt
    exact u32_of_lt _ hlt

theorem AddExternalIndices_appends_witness :
    (∀ k, k < 5 →
      (IndexGenerator.AddExternalIndices 100 5 5 (fun a => a, ⟨10, 10, 3⟩)).1
        ((⟨10, 10, 3⟩ : IndexGenerator).m_index_buffer_current + k) = (fun a => a) (100 + k)) ∧
    (∀ a, a < (⟨10, 10, 3⟩ : IndexGenerator).m_index_buffer_current ∨
        (⟨10, 10, 3⟩ : IndexGenerator).m_index_buffer_current + 5 ≤ a →
      (IndexGenerator.AddExternalIndices 100 5 5 (fun a => a, ⟨10, 10, 3⟩)).1 a
        = (fun a => a) a) ∧
    (IndexGenerator.AddExternalIndices 100 5 5 (fun a => a, ⟨10, 10, 3⟩)).2
      = ⟨(⟨10, 10, 3⟩ : IndexGenerator).m_index_buffer_current + 5,
          (⟨10, 10, 3⟩ : IndexGenerator).m_base_index_ptr,
          ((⟨10, 10, 3⟩ : IndexGenerator).m_base_index + 5) % 4294967296⟩ ∧
    ((⟨10, 10, 3⟩ : IndexGenerator).m_base_index + 5 < 4294967296 →
      (IndexGenerator.AddExternalIndices 100 5 5 (fun a => a, ⟨10, 10, 3⟩)).2.m_base_index
        = (⟨10, 10, 3⟩ : IndexGenerator).m_base_index + 5) ∧
    (∀ fuel, (Call.AddExternalIndices 100 5 5).run fuel (fun a => a, ⟨10, 10, 3⟩)
      = some (IndexGenerator.AddExternalIndices 100 5 5 (fun a => a, ⟨10, 10, 3⟩))) :=
  AddExternalIndices_appends 100 5 5 (fun a => a) ⟨10, 10, 3⟩

/-! ## Starting a session (C13) -/

theorem runCalls_start_base (fuel : Nat) (mem : Mem) (g : IndexGenerator) (index_ptr : Nat)
    (calls : List Call) (w' : Mem × IndexGenerator)
    (h : runCalls fuel (mem, g.Start index_ptr) calls = some w') :
    w'.2.m_base_index = consumed calls % 4294967296 := by
  rcases runCalls_base fuel calls _ w' h with h1 | ⟨h1, h2⟩
  · rw [h1]
    simp [IndexGenerator.Start, u32]
  · rw [h2, h1]
    rfl

/-- C13: for every prior session state, `Start(buffer)` sets the write position and the
session start to `buffer` and the base index to 0, whatever the state was before, so that
`GetRemainingIndices` is 65534 immediately afterwards; and after any sequence of returning
calls made since this `Start` (the sequence does return), `GetRemainingIndices` is
`(65534 - V) mod 2^32` for the `V` vertices those calls passed, which is `65534 - V` when
`V ≤ 65534`: nothing of the prior state enters it. -/
theorem Start_resets (g : IndexGenerator) (index_ptr : Nat) :
    g.Start index_ptr = ⟨index_ptr, index_ptr, 0⟩ ∧
    (g.Start index_ptr).GetRemainingIndices = 65534 ∧
    (∀ (mem : Mem) (calls : List Call), (∀ c ∈ calls, c.returns = true) →
      (∃ w', runCalls 4294967296 (mem, g.Start index_ptr) calls = some w') ∧
      (∀ fuel w', runCalls fuel (mem, g.Start index_ptr) calls = some w' →
        (w'.2.GetRemainingIndices : Int) = (65534 - (consumed calls : Int)) % 4294967296 ∧
        (consumed calls ≤ 65534 → w'.2.GetRemainingIndices = 65534 - consumed calls))) := by
  have hrem : u32sub 65534 0 = 65534 := by decide
  refine ⟨rfl, hrem, ?_⟩
  intro mem calls hret
  refine ⟨runCalls_returns _ (le_refl _) calls _ hret, ?_⟩
  intro fuel w' h
  have hsum := runCalls_start_base fuel mem g index_ptr calls w' h
  simp only [IndexGenerator.GetRemainingIndices, u32sub, u32, hsum]
  refine ⟨?_, fun hle => ?_⟩
  · omega
  · omega

theorem Start_resets_witness :
    (⟨77, 12, 4000⟩ : IndexGenerator).Start 200 = ⟨200, 200, 0⟩ ∧
    ((⟨77, 12, 4000⟩ : IndexGenerator).Start 200).GetRemainingIndices = 65534 ∧
    (∀ (mem : Mem) (calls : List Call), (∀ c ∈ calls, c.returns = true) →
      (∃ w', runCalls 4294967296 (mem, (⟨77, 12, 4000⟩ : IndexGenerator).Start 200) calls
        = some w') ∧
      (∀ fuel w', runCalls fuel (mem, (⟨77, 12, 4000⟩ : IndexGenerator).Start 200) calls
          = some w' →
        (w'.2.GetRemainingIndices : Int) = (65534 - (consumed calls : Int)) % 4294967296 ∧
        (consumed calls ≤ 65534 → w'.2.GetRemainingIndices = 65534 - consumed calls))) :=
  Start_resets ⟨77, 12, 4000⟩ 200

/-! ## No capacity check (C14) -/

theorem AddLineList_body_counter (index : Nat) (k : Nat) (s : LoopState) :
    ((AddLineList.body index)^[k] s).i = (s.i + 2 * k) % 4294967296 ∨ k = 0 := by
  induction k with
  | zero => exact Or.inr rfl
  | succ k ih =>
    left
    rw [Function.iterate_succ_apply']
    rcases ih with h | h
    · simp only [AddLineList.body, LoopState.put, u32, h]
      omega
    · subst h
      simp only [Function.iterate_zero, id_eq, AddLineList.body, LoopState.put, u32]

/-- C19, at the failing input `num_verts = 0xFFFFFFFF` of the LineList expander: the counter
starts at 0 and is advanced by 2 modulo `2^32`, so after any number of iterations it is
even and below the odd bound 4294967295 (from 4294967294 it wraps to 0): the condition
`i < num_verts` holds for ever and the expander returns for no loop budget, whatever the
memory, the write position and the base index. -/
theorem AddLineList_never_exits :
    u32 (4294967294 + 2) = 0 ∧
    (∀ (index_ptr index k : Nat) (mem : Mem),
      ((AddLineList.body index)^[k] ⟨0, mem, index_ptr⟩).i % 2 = 0 ∧
      ((AddLineList.body index)^[k] ⟨0, mem, index_ptr⟩).i < 4294967295) ∧
    (∀ (fuel index_ptr index : Nat) (mem : Mem),
      AddLineList fuel mem index_ptr 4294967295 index = none) := by
  refine ⟨by decide, ?_, ?_⟩
  · intro index_ptr index k mem
    rcases AddLineList_body_counter index k ⟨0, mem, index_ptr⟩ with h | h
    · rw [h]
      simp only []
      omega
    · subst h
      simp
  · intro fuel index_ptr index mem
    exact AddLineList_diverges fuel mem index_ptr index

/-- Every expander but LineList exits for every `u32` vertex count, and LineList exits for
every count but `0xFFFFFFFF`: a loop budget of `2^32` always suffices. -/
theorem expanders_exit (primitive : Primitive) (cullmode : CullMode) (mem : Mem)
    (index_ptr N B : Nat) (hN : N < 4294967296)
    (hex : ¬ (primitive = Primitive.GX_DRAW_LINES ∧ N = 4294967295)) :
    ∃ mem' : Mem, m_primitive_table primitive 4294967296 cullmode mem index_ptr N B
      = some (mem', index_ptr + emitted primitive N) := by
  obtain ⟨g, hg⟩ := m_primitive_table_emitted primitive 4294967296 cullmode mem index_ptr N B
    hN hex (le_refl _)
  exact ⟨_, hg⟩

/-! ## Triangle lists of complete triples (C17) -/

/-- C17: for every `k`, base index `B` with `B + 3k ≤ 65534` and cull mode, TriangleList with
`N = 3k` returns (loop budget above `k`) having appended exactly `N` indices; triple `j < k`
starts with `B + 3j`, and its 2nd and 3rd entries are `B + 3j + 1, B + 3j + 2` under
clockwise winding and `B + 3j + 2, B + 3j + 1` under counter-clockwise winding (front-face
culling): they are swapped relative to input order if and only if the winding is
counter-clockwise. -/
theorem AddList_complete_triples (fuel : Nat) (cullmode : CullMode) (mem : Mem)
    (index_ptr k B : Nat) (hB : B + 3 * k ≤ 65534) (hfuel : k < fuel) :
    ∃ mem' : Mem,
      AddList fuel cullmode mem index_ptr (3 * k) B = some (mem', index_ptr + 3 * k) ∧
      (∀ j, j < k →
        mem' (index_ptr + 3 * j) = B + 3 * j ∧
        (ccw cullmode = false →
          mem' (index_ptr + 3 * j + 1) = B + 3 * j + 1 ∧
          mem' (index_ptr + 3 * j + 2) = B + 3 * j + 2) ∧
        (ccw cullmode = true →
          mem' (index_ptr + 3 * j + 1) = B + 3 * j + 2 ∧
          mem' (index_ptr + 3 * j + 2) = B + 3 * j + 1) ∧
        ((mem' (index_ptr + 3 * j + 1) = B + 3 * j + 2 ∧
          mem' (index_ptr + 3 * j + 2) = B + 3 * j + 1) ↔ ccw cullmode = true)) ∧
      (∀ a, a < index_ptr ∨ index_ptr + 3 * k ≤ a → mem' a = mem a) := by
  have hrun := AddList_run fuel cullmode mem index_ptr (3 * k) B (by omega) (by omega)
  have hcount : 3 * ((3 * k + 2) / 3) = 3 * k := by omega
  rw [hcount] at hrun
  refine ⟨_, hrun, ?_, ?_⟩
  · intro j hj
    have e0 : fill mem index_ptr (3 * k) (AddList.value B (if ccw cullmode then 2 else 1)
        (if ccw cullmode then 1 else 2)) (index_ptr + 3 * j) = B + 3 * j := by
      rw [fill_inside _ _ _ _ _ (by omega), AddList_value_zero]
      exact u16_u32_of_lt _ (by omega)
    have e1 : fill mem index_ptr (3 * k) (AddList.value B (if ccw cullmode then 2 else 1)
        (if ccw cullmode then 1 else 2)) (index_ptr + 3 * j + 1)
          = B + 3 * j + (if ccw cullmode then 2 else 1) := by
      rw [Nat.add_assoc, fill_inside _ _ _ _ _ (by omega), AddList_value_one]
      exact u16_u32_of_lt _ (by split <;> omega)
    have e2 : fill mem index_ptr (3 * k) (AddList.value B (if ccw cullmode then 2 else 1)
        (if ccw cullmode then 1 else 2)) (index_ptr + 3 * j + 2)
          = B + 3 * j + (if ccw cullmode then 1 else 2) := by
      rw [Nat.add_assoc, fill_inside _ _ _ _ _ (by omega), AddList_value_two]
      exact u16_u32_of_lt _ (by split <;> omega)
    rw [e1, e2]
    refine ⟨e0, ?_, ?_, ?_⟩
    · intro hc
      simp [hc]
    · intro hc
      simp [hc]
    · by_cases hc : ccw cullmode = true
      · simp [hc]
      · simp [hc]
  · intro a ha
    exact fill_outside _ _ _ _ _ ha

theorem AddList_complete_triples_witness :
    100 + 3 * 2 ≤ 65534 ∧ 2 < 3 ∧
    ∃ mem' : Mem,
      AddList 3 CullMode.Front (fun _ => 0) 0 (3 * 2) 100 = some (mem', 0 + 3 * 2) ∧
      (∀ j, j < 2 →
        mem' (0 + 3 * j) = 100 + 3 * j ∧
        (ccw CullMode.Front = false →
          mem' (0 + 3 * j + 1) = 100 + 3 * j + 1 ∧
          mem' (0 + 3 * j + 2) = 100 + 3 * j + 2) ∧
        (ccw CullMode.Front = true →
          mem' (0 + 3 * j + 1) = 100 + 3 * j + 2 ∧
          mem' (0 + 3 * j + 2) = 100 + 3 * j + 1) ∧
        ((mem' (0 + 3 * j + 1) = 100 + 3 * j + 2 ∧
          mem' (0 + 3 * j + 2) = 100 + 3 * j + 1) ↔ ccw CullMode.Front = true)) ∧
      (∀ a, a < 0 ∨ 0 + 3 * 2 ≤ a → mem' a = (fun _ => 0) a) :=
  ⟨by decide, by decide,
    AddList_complete_triples 3 CullMode.Front (fun _ => 0) 0 2 100 (by decide) (by decide)⟩

/-! ## Winding (C18) -/

theorem ccw_of_ne_front (cullmode : CullMode) (h : cullmode ≠ CullMode.Front) :
    ccw cullmode = false := by
  cases cullmode <;> first | rfl | exact absurd rfl h

theorem fill_triples_swapped (mem : Mem) (p n : Nat) (g1 g2 : Nat → Nat)
    (h : ∀ j, g2 (3 * j) = g1 (3 * j) ∧ g2 (3 * j + 1) = g1 (3 * j + 2) ∧
      g2 (3 * j + 2) = g1 (3 * j + 1)) :
    (∀ j, 3 * j + 2 < n →
      fill mem p n g2 (p + 3 * j) = fill mem p n g1 (p + 3 * j) ∧
      fill mem p n g2 (p + 3 * j + 1) = fill mem p n g1 (p + 3 * j + 2) ∧
      fill mem p n g2 (p + 3 * j + 2) = fill mem p n g1 (p + 3 * j + 1)) ∧
    (∀ a, a < p ∨ p + n ≤ a → fill mem p n g2 a = fill mem p n g1 a) := by
  refine ⟨?_, ?_⟩
  · intro j hj
    obtain ⟨h0, h1, h2⟩ := h j
    refine ⟨?_, ?_, ?_⟩
    · rw [fill_inside _ _ _ _ _ (by omega), fill_inside _ _ _ _ _ (by omega), h0]
    · rw [Nat.add_assoc, Nat.add_assoc, fill_inside _ _ _ _ _ (by omega),
        fill_inside _ _ _ _ _ (by omega), h1]
    · rw [Nat.add_assoc, Nat.add_assoc, fill_inside _ _ _ _ _ (by omega),
        fill_inside _ _ _ _ _ (by omega), h2]
  · intro a ha
    rw [fill_outside _ _ _ _ _ ha, fill_outside _ _ _ _ _ ha]

theorem AddList_value_swapped (index j : Nat) :
    AddList.value index 2 1 (3 * j) = AddList.value index 1 2 (3 * j) ∧
    AddList.value index 2 1 (3 * j + 1) = AddList.value index 1 2 (3 * j + 2) ∧
    AddList.value index 2 1 (3 * j + 2) = AddList.value index 1 2 (3 * j + 1) := by
  simp only [AddList_value_zero, AddList_value_one, AddList_value_two, and_self]

theorem AddFan_value_swapped (index j : Nat) :
    AddFan.value index 2 1 (3 * j) = AddFan.value index 1 2 (3 * j) ∧
    AddFan.value index 2 1 (3 * j + 1) = AddFan.value index 1 2 (3 * j + 2) ∧
    AddFan.value index 2 1 (3 * j + 2) = AddFan.value index 1 2 (3 * j + 1) := by
  simp only [AddFan_value_zero, AddFan_value_one, AddFan_value_two, and_self]

theorem AddStrip_windAt_cases (k : Nat) :
    (AddStrip.windAt 1 k = 1 ∧ AddStrip.windAt 2 k = 2) ∨
    (AddStrip.windAt 1 k = 2 ∧ AddStrip.windAt 2 k = 1) := by
  unfold AddStrip.windAt
  by_cases hp : k % 2 = 0 <;> simp [hp]

theorem AddStrip_value_swapped (index j : Nat) :
    AddStrip.value index 2 (3 * j) = AddStrip.value index 1 (3 * j) ∧
    AddStrip.value index 2 (3 * j + 1) = AddStrip.value index 1 (3 * j + 2) ∧
    AddStrip.value index 2 (3 * j + 2) = AddStrip.value index 1 (3 * j + 1) := by
  simp only [AddStrip_value_zero, AddStrip_value_one, AddStrip_value_two, true_and]
  have x1 : 1 ^^^ 3 = 2 := by decide
  have x2 : 2 ^^^ 3 = 1 := by decide
  rcases AddStrip_windAt_cases j with ⟨h1, h2⟩ | ⟨h1, h2⟩ <;> rw [h1, h2, x1, x2] <;>
    exact ⟨rfl, rfl⟩

theorem AddQuads_value_swapped (index j : Nat) :
    AddQuads.value index 2 1 3 2 (3 * j) = AddQuads.value index 1 2 2 3 (3 * j) ∧
    AddQuads.value index 2 1 3 2 (3 * j + 1) = AddQuads.value index 1 2 2 3 (3 * j + 2) ∧
    AddQuads.value index 2 1 3 2 (3 * j + 2) = AddQuads.value index 1 2 2 3 (3 * j + 1) := by
  obtain ⟨q, hq⟩ : ∃ q, j = 2 * q ∨ j = 2 * q + 1 := ⟨j / 2, by omega⟩
  obtain ⟨a0, a1, a2, a3, a4, a5⟩ := AddQuads_value_at index 2 1 3 2 q
  obtain ⟨b0, b1, b2, b3, b4, b5⟩ := AddQuads_value_at index 1 2 2 3 q
  rcases hq with h | h <;> subst h
  · have e0 : 3 * (2 * q) = 6 * q := by ring
    rw [e0, a0, a1, a2, b0, b1, b2]
    exact ⟨rfl, rfl, rfl⟩
  · have e0 : 3 * (2 * q + 1) = 6 * q + 3 := by ring
    have e1 : 6 * q + 3 + 1 = 6 * q + 4 := by ring
    have e2 : 6 * q + 3 + 2 = 6 * q + 5 := by ring
    rw [e0, e1, e2, a3, a4, a5, b3, b4, b5]
    exact ⟨rfl, rfl, rfl⟩

/-- C18: for every triangle-producing topology (TriangleList, TriangleStrip, TriangleFan,
Quads, QuadsAlt), every `u32` vertex count `N`, base index `B` and clockwise cull mode
(any mode but front-face culling), the expander returns under both windings with the same
number of indices, and the counter-clockwise output is the clockwise output with the 2nd and
3rd entry of every consecutive triple swapped, the 1st entry being the same; nothing else
in memory differs. For Points, LineList and LineStrip the result is the same under both
windings, for every loop budget. -/
theorem winding_swaps_second_and_third (primitive : Primitive) (cw : CullMode) (mem : Mem)
    (index_ptr N B : Nat) (hcw : cw ≠ CullMode.Front) (hN : N < 4294967296) :
    (primitive = Primitive.GX_DRAW_TRIANGLES ∨ primitive = Primitive.GX_DRAW_TRIANGLE_STRIP ∨
      primitive = Primitive.GX_DRAW_TRIANGLE_FAN ∨ primitive = Primitive.GX_DRAW_QUADS ∨
      primitive = Primitive.GX_DRAW_QUADS_2 →
      ∃ m1 m2 : Mem,
        m_primitive_table primitive 4294967296 cw mem index_ptr N B
          = some (m1, index_ptr + emitted primitive N) ∧
        m_primitive_table primitive 4294967296 CullMode.Front mem index_ptr N B
          = some (m2, index_ptr + emitted primitive N) ∧
        (∀ j, 3 * j + 2 < emitted primitive N →
          m2 (index_ptr + 3 * j) = m1 (index_ptr + 3 * j) ∧
          m2 (index_ptr + 3 * j + 1) = m1 (index_ptr + 3 * j + 2) ∧
          m2 (index_ptr + 3 * j + 2) = m1 (index_ptr + 3 * j + 1)) ∧
        (∀ a, a < index_ptr ∨ index_ptr + emitted primitive N ≤ a → m2 a = m1 a)) ∧
    (primitive = Primitive.GX_DRAW_POINTS ∨ primitive = Primitive.GX_DRAW_LINES ∨
      primitive = Primitive.GX_DRAW_LINE_STRIP →
      ∀ fuel, m_primitive_table primitive fuel cw mem index_ptr N B
        = m_primitive_table primitive fuel CullMode.Front mem index_ptr N B) := by
  have hc : ccw cw = false := ccw_of_ne_front cw hcw
  have hf : ccw CullMode.Front = true := rfl
  have hsub2 : u32sub N 2 < 4294967296 := Nat.mod_lt _ (by norm_num)
  refine ⟨?_, ?_⟩
  · intro hp
    rcases hp with h | h | h | h | h <;> subst h
    · have r1 := AddList_run 4294967296 cw mem index_ptr N B hN (by omega)
      have r2 := AddList_run 4294967296 CullMode.Front mem index_ptr N B hN (by omega)
      simp only [hc, hf, Bool.false_eq_true, if_true, if_false] at r1 r2
      obtain ⟨s1, s2⟩ := fill_triples_swapped mem index_ptr (3 * ((N + 2) / 3)) _ _
        (AddList_value_swapped B)
      exact ⟨_, _, r1, r2, s1, s2⟩
    · have r1 := AddStrip_run 4294967296 cw mem index_ptr N B (by omega)
      have r2 := AddStrip_run 4294967296 CullMode.Front mem index_ptr N B (by omega)
      simp only [hc, hf, Bool.false_eq_true, if_true, if_false] at r1 r2
      obtain ⟨s1, s2⟩ := fill_triples_swapped mem index_ptr (3 * u32sub N 2) _ _
        (AddStrip_value_swapped B)
      exact ⟨_, _, r1, r2, s1, s2⟩
    · have hK : (if N < 3 then 1 else u32sub N 2) < 4294967296 := by split <;> omega
      have r1 := AddFan_run 4294967296 cw mem index_ptr N B _ rfl hK
      have r2 := AddFan_run 4294967296 CullMode.Front mem index_ptr N B _ rfl hK
      simp only [hc, hf, Bool.false_eq_true, if_true, if_false] at r1 r2
      obtain ⟨s1, s2⟩ := fill_triples_swapped mem index_ptr
        (3 * (if N < 3 then 1 else u32sub N 2)) _ _ (AddFan_value_swapped B)
      exact ⟨_, _, r1, r2, s1, s2⟩
    · have r1 := AddQuads_run 4294967296 cw mem index_ptr N B hN (by omega)
      have r2 := AddQuads_run 4294967296 CullMode.Front mem index_ptr N B hN (by omega)
      simp only [hc, hf, Bool.false_eq_true, if_true, if_false] at r1 r2
      obtain ⟨s1, s2⟩ := fill_triples_swapped mem index_ptr
        (6 * (N / 4) + (if N % 4 = 0 then 0 else 3)) _ _ (AddQuads_value_swapped B)
      exact ⟨_, _, r1, r2, s1, s2⟩
    · have r1 := AddQuads_run 4294967296 cw mem index_ptr N B hN (by omega)
      have r2 := AddQuads_run 4294967296 CullMode.Front mem index_ptr N B hN (by omega)
      simp only [hc, hf, Bool.false_eq_true, if_true, if_false] at r1 r2
      obtain ⟨s1, s2⟩ := fill_triples_swapped mem index_ptr
        (6 * (N / 4) + (if N % 4 = 0 then 0 else 3)) _ _ (AddQuads_value_swapped B)
      exact ⟨_, _, r1, r2, s1, s2⟩
  · intro hp fuel
    rcases hp with h | h | h <;> subst h <;> rfl

theorem winding_swaps_second_and_third_witness :
    CullMode.Back ≠ CullMode.Front ∧ 7 < 4294967296 ∧
    ((Primitive.GX_DRAW_QUADS = Primitive.GX_DRAW_TRIANGLES ∨
      Primitive.GX_DRAW_QUADS = Primitive.GX_DRAW_TRIANGLE_STRIP ∨
      Primitive.GX_DRAW_QUADS = Primitive.GX_DRAW_TRIANGLE_FAN ∨
      Primitive.GX_DRAW_QUADS = Primitive.GX_DRAW_QUADS ∨
      Primitive.GX_DRAW_QUADS = Primitive.GX_DRAW_QUADS_2 →
      ∃ m1 m2 : Mem,
        m_primitive_table Primitive.GX_DRAW_QUADS 4294967296 CullMode.Back (fun _ => 0) 0 7 50
          = some (m1, 0 + emitted Primitive.GX_DRAW_QUADS 7) ∧
        m_primitive_table Primitive.GX_DRAW_QUADS 4294967296 CullMode.Front (fun _ => 0) 0 7 50
          = some (m2, 0 + emitted Primitive.GX_DRAW_QUADS 7) ∧
        (∀ j, 3 * j + 2 < emitted Primitive.GX_DRAW_QUADS 7 →
          m2 (0 + 3 * j) = m1 (0 + 3 * j) ∧
          m2 (0 + 3 * j + 1) = m1 (0 + 3 * j + 2) ∧
          m2 (0 + 3 * j + 2) = m1 (0 + 3 * j + 1)) ∧
        (∀ a, a < 0 ∨ 0 + emitted Primitive.GX_DRAW_QUADS 7 ≤ a → m2 a = m1 a)) ∧
    (Primitive.GX_DRAW_QUADS = Primitive.GX_DRAW_POINTS ∨
      Primitive.GX_DRAW_QUADS = Primitive.GX_DRAW_LINES ∨
      Primitive.GX_DRAW_QUADS = Primitive.GX_DRAW_LINE_STRIP →
      ∀ fuel, m_primitive_table Primitive.GX_DRAW_QUADS fuel CullMode.Back (fun _ => 0) 0 7 50
        = m_primitive_table Primitive.GX_DRAW_QUADS fuel CullMode.Front (fun _ => 0) 0 7 50)) :=
  ⟨by decide, by decide,
    winding_swaps_second_and_third Primitive.GX_DRAW_QUADS CullMode.Back (fun _ => 0) 0 7 50
      (by decide) (by decide)⟩

/-! ## The vertices a well-formed draw references (C20) -/

theorem fill_value_set (mem : Mem) (p n : Nat) (g : Nat → Nat) (v : Nat) :
    (∃ d, d < n ∧ fill mem p n g (p + d) = v) ↔ (∃ d, d < n ∧ g d = v) := by
  constructor
  · rintro ⟨d, hd, h⟩
    rw [fill_inside _ _ _ _ _ hd] at h
    exact ⟨d, hd, h⟩
  · rintro ⟨d, hd, h⟩
    refine ⟨d, hd, ?_⟩
    rw [fill_inside _ _ _ _ _ hd]
    exact h

theorem AddPoints_value_set (B N : Nat) (hB : B + N ≤ 65536) (v : Nat) :
    (∃ d, d < N ∧ AddPoints.value B d = v) ↔ (B ≤ v ∧ v < B + N) := by
  constructor
  · rintro ⟨d, hd, rfl⟩
    simp only [AddPoints.value]
    rw [u16_u32_of_lt _ (by omega)]
    omega
  · rintro ⟨h1, h2⟩
    refine ⟨v - B, by omega, ?_⟩
    simp only [AddPoints.value]
    rw [u16_u32_of_lt _ (by omega)]
    omega

theorem AddLineList_value_at (index k : Nat) :
    AddLineList.value index (2 * k) = u16 (u32 (index + 2 * k)) ∧
    AddLineList.value index (2 * k + 1) = u16 (u32 (index + 2 * k + 1)) := by
  have h1 : 2 * k % 2 = 0 := by omega
  have h2 : 2 * k / 2 = k := by omega
  have h3 : (2 * k + 1) % 2 = 1 := by omega
  have h4 : (2 * k + 1) / 2 = k := by omega
  refine ⟨?_, ?_⟩
  · simp only [AddLineList.value, h1, h2, if_true]
  · simp [AddLineList.value, h3, h4]

theorem AddLineStrip_value_at (index k : Nat) :
    AddLineStrip.value index (2 * k) = u16 (u32 (index + k)) ∧
    AddLineStrip.value index (2 * k + 1) = u16 (u32 (index + k + 1)) := by
  have h1 : 2 * k % 2 = 0 := by omega
  have h2 : 2 * k / 2 = k := by omega
  have h3 : (2 * k + 1) % 2 = 1 := by omega
  have h4 : (2 * k + 1) / 2 = k := by omega
  refine ⟨?_, ?_⟩
  · simp only [AddLineStrip.value, h1, h2, if_true]
  · simp [AddLineStrip.value, h3, h4]

theorem AddLineList_value_set (B N : Nat) (hB : B + N ≤ 65536) (hwf : N % 2 = 0) (v : Nat) :
    (∃ d, d < 2 * ((N + 1) / 2) ∧ AddLineList.value B d = v) ↔ (B ≤ v ∧ v < B + N) := by
  constructor
  · rintro ⟨d, hd, rfl⟩
    obtain ⟨q, hq⟩ : ∃ q, d = 2 * q ∨ d = 2 * q + 1 := ⟨d / 2, by omega⟩
    rcases hq with h | h <;> subst h
    · rw [(AddLineList_value_at B q).1, u16_u32_of_lt _ (by omega)]
      omega
    · rw [(AddLineList_value_at B q).2, u16_u32_of_lt _ (by omega)]
      omega
  · rintro ⟨h1, h2⟩
    obtain ⟨q, hq⟩ : ∃ q, v - B = 2 * q ∨ v - B = 2 * q + 1 := ⟨(v - B) / 2, by omega⟩
    rcases hq with h | h
    · refine ⟨2 * q, by omega, ?_⟩
      rw [(AddLineList_value_at B q).1, u16_u32_of_lt _ (by omega)]
      omega
    · refine ⟨2 * q + 1, by omega, ?_⟩
      rw [(AddLineList_value_at B q).2, u16_u32_of_lt _ (by omega)]
      omega

theorem AddLineStrip_value_set (B N : Nat) (hB : B + N ≤ 65536) (hwf : 2 ≤ N) (v : Nat) :
    (∃ d, d < 2 * u32sub N 1 ∧ AddLineStrip.value B d = v) ↔ (B ≤ v ∧ v < B + N) := by
  rw [u32sub_of_le N 1 (by omega) (by omega)]
  constructor
  · rintro ⟨d, hd, rfl⟩
    obtain ⟨q, hq⟩ : ∃ q, d = 2 * q ∨ d = 2 * q + 1 := ⟨d / 2, by omega⟩
    rcases hq with h | h <;> subst h
    · rw [(AddLineStrip_value_at B q).1, u16_u32_of_lt _ (by omega)]
      omega
    · rw [(AddLineStrip_value_at B q).2, u16_u32_of_lt _ (by omega)]
      omega
  · rintro ⟨h1, h2⟩
    by_cases hlast : v - B + 1 < N
    · refine ⟨2 * (v - B), by omega, ?_⟩
      rw [(AddLineStrip_value_at B (v - B)).1, u16_u32_of_lt _ (by omega)]
      omega
    · refine ⟨2 * (N - 2) + 1, by omega, ?_⟩
      rw [(AddLineStrip_value_at B (N - 2)).2, u16_u32_of_lt _ (by omega)]
      omega

theorem AddList_value_set (B N v1 v2 : Nat) (hB : B + N ≤ 65536)
    (hv : (v1 = 1 ∧ v2 = 2) ∨ (v1 = 2 ∧ v2 = 1)) (hwf : N % 3 = 0) (v : Nat) :
    (∃ d, d < 3 * ((N + 2) / 3) ∧ AddList.value B v1 v2 d = v) ↔ (B ≤ v ∧ v < B + N) := by
  constructor
  · rintro ⟨d, hd, rfl⟩
    obtain ⟨q, hq⟩ : ∃ q, d = 3 * q ∨ d = 3 * q + 1 ∨ d = 3 * q + 2 := ⟨d / 3, by omega⟩
    rcases hq with h | h | h <;> subst h
    · rw [AddList_value_zero, u16_u32_of_lt _ (by omega)]
      omega
    · rw [AddList_value_one, u16_u32_of_lt _ (by omega)]
      omega
    · rw [AddList_value_two, u16_u32_of_lt _ (by omega)]
      omega
  · rintro ⟨h1, h2⟩
    obtain ⟨q, hq⟩ : ∃ q, v - B = 3 * q ∨ v - B = 3 * q + 1 ∨ v - B = 3 * q + 2 :=
      ⟨(v - B) / 3, by omega⟩
    rcases hq with h | h | h
    · refine ⟨3 * q, by omega, ?_⟩
      rw [AddList_value_zero, u16_u32_of_lt _ (by omega)]
      omega
    · rcases hv with ⟨a, b⟩ | ⟨a, b⟩
      · refine ⟨3 * q + 1, by omega, ?_⟩
        rw [AddList_value_one, u16_u32_of_lt _ (by omega)]
        omega
      · refine ⟨3 * q + 2, by omega, ?_⟩
        rw [AddList_value_two, u16_u32_of_lt _ (by omega)]
        omega
    · rcases hv with ⟨a, b⟩ | ⟨a, b⟩
      · refine ⟨3 * q + 2, by omega, ?_⟩
        rw [AddList_value_two, u16_u32_of_lt _ (by omega)]
        omega
      · refine ⟨3 * q + 1, by omega, ?_⟩
        rw [AddList_value_one, u16_u32_of_lt _ (by omega)]
        omega

theorem AddFan_value_set (B N v1 v2 : Nat) (hB : B + N ≤ 65536)
    (hv : (v1 = 1 ∧ v2 = 2) ∨ (v1 = 2 ∧ v2 = 1)) (hwf : 3 ≤ N) (v : Nat) :
    (∃ d, d < 3 * (if N < 3 then 1 else u32sub N 2) ∧ AddFan.value B v1 v2 d = v)
      ↔ (B ≤ v ∧ v < B + N) := by
  rw [if_neg (by omega), u32sub_of_le N 2 (by omega) (by omega)]
  constructor
  · rintro ⟨d, hd, rfl⟩
    obtain ⟨q, hq⟩ : ∃ q, d = 3 * q ∨ d = 3 * q + 1 ∨ d = 3 * q + 2 := ⟨d / 3, by omega⟩
    rcases hq with h | h | h <;> subst h
    · rw [AddFan_value_zero, u16_u32_of_lt _ (by omega)]
      omega
    · rw [AddFan_value_one, u16_u32_of_lt _ (by omega)]
      omega
    · rw [AddFan_value_two, u16_u32_of_lt _ (by omega)]
      omega
  · rintro ⟨h1, h2⟩
    by_cases h0 : v = B
    · refine ⟨3 * 0, by omega, ?_⟩
      rw [AddFan_value_zero, u16_u32_of_lt _ (by omega)]
      omega
    · by_cases hone : v = B + 1
      · rcases hv with ⟨a, b⟩ | ⟨a, b⟩
        · refine ⟨3 * 0 + 1, by omega, ?_⟩
          rw [AddFan_value_one, u16_u32_of_lt _ (by omega)]
          omega
        · refine ⟨3 * 0 + 2, by omega, ?_⟩
          rw [AddFan_value_two, u16_u32_of_lt _ (by omega)]
          omega
      · rcases hv with ⟨a, b⟩ | ⟨a, b⟩
        · refine ⟨3 * (v - B - 2) + 2, by omega, ?_⟩
          rw [AddFan_value_two, u16_u32_of_lt _ (by omega)]
          omega
        · refine ⟨3 * (v - B - 2) + 1, by omega, ?_⟩
          rw [AddFan_value_one, u16_u32_of_lt _ (by omega)]
          omega

theorem AddStrip_windAt_one_or_two (wind k : Nat) (hw : wind = 1 ∨ wind = 2) :
    (AddStrip.windAt wind k = 1 ∧ AddStrip.windAt wind k ^^^ 3 = 2) ∨
    (AddStrip.windAt wind k = 2 ∧ AddStrip.windAt wind k ^^^ 3 = 1) := by
  unfold AddStrip.windAt
  rcases hw with h | h <;> subst h <;> by_cases hp : k % 2 = 0 <;> simp [hp]

theorem AddStrip_value_set (B N wind : Nat) (hB : B + N ≤ 65536)
    (hw : wind = 1 ∨ wind = 2) (hwf : 3 ≤ N) (v : Nat) :
    (∃ d, d < 3 * u32sub N 2 ∧ AddStrip.value B wind d = v) ↔ (B ≤ v ∧ v < B + N) := by
  rw [u32sub_of_le N 2 (by omega) (by omega)]
  constructor
  · rintro ⟨d, hd, rfl⟩
    obtain ⟨q, hq⟩ : ∃ q, d = 3 * q ∨ d = 3 * q + 1 ∨ d = 3 * q + 2 := ⟨d / 3, by omega⟩
    rcases AddStrip_windAt_one_or_two wind q hw with ⟨a, b⟩ | ⟨a, b⟩ <;>
      rcases hq with h | h | h <;> subst h
    · rw [AddStrip_value_zero, u16_u32_of_lt _ (by omega)]
      omega
    · rw [AddStrip_value_one, a, u16_u32_of_lt _ (by omega)]
      omega
    · rw [AddStrip_value_two, b, u16_u32_of_lt _ (by omega)]
      omega
    · rw [AddStrip_value_zero, u16_u32_of_lt _ (by omega)]
      omega
    · rw [AddStrip_value_one, a, u16_u32_of_lt _ (by omega)]
      omega
    · rw [AddStrip_value_two, b, u16_u32_of_lt _ (by omega)]
      omega
  · rintro ⟨h1, h2⟩
    by_cases hfirst : v - B + 3 ≤ N
    · refine ⟨3 * (v - B), by omega, ?_⟩
      rw [AddStrip_value_zero, u16_u32_of_lt _ (by omega)]
      omega
    · rcases AddStrip_windAt_one_or_two wind (N - 3) hw with ⟨a, b⟩ | ⟨a, b⟩
      · by_cases hmid : v - B + 2 = N
        · refine ⟨3 * (N - 3) + 1, by omega, ?_⟩
          rw [AddStrip_value_one, a, u16_u32_of_lt _ (by omega)]
          omega
        · refine ⟨3 * (N - 3) + 2, by omega, ?_⟩
          rw [AddStrip_value_two, b, u16_u32_of_lt _ (by omega)]
          omega
      · by_cases hmid : v - B + 2 = N
        · refine ⟨3 * (N - 3) + 2, by omega, ?_⟩
          rw [AddStrip_value_two, b, u16_u32_of_lt _ (by omega)]
          omega
        · refine ⟨3 * (N - 3) + 1, by omega, ?_⟩
          rw [AddStrip_value_one, a, u16_u32_of_lt _ (by omega)]
          omega

theorem AddQuads_value_set (B N v1 v2 v3 v4 : Nat) (hB : B + N ≤ 65536)
    (hv : (v1 = 1 ∧ v2 = 2 ∧ v3 = 2 ∧ v4 = 3) ∨ (v1 = 2 ∧ v2 = 1 ∧ v3 = 3 ∧ v4 = 2))
    (hwf : N % 4 = 0) (v : Nat) :
    (∃ d, d < 6 * (N / 4) + (if N % 4 = 0 then 0 else 3) ∧ AddQuads.value B v1 v2 v3 v4 d = v)
      ↔ (B ≤ v ∧ v < B + N) := by
  rw [if_pos hwf]
  constructor
  · rintro ⟨d, hd, rfl⟩
    obtain ⟨q, hq⟩ : ∃ q, d = 6 * q ∨ d = 6 * q + 1 ∨ d = 6 * q + 2 ∨ d = 6 * q + 3 ∨
        d = 6 * q + 4 ∨ d = 6 * q + 5 := ⟨d / 6, by omega⟩
    obtain ⟨e0, e1, e2, e3, e4, e5⟩ := AddQuads_value_at B v1 v2 v3 v4 q
    rcases hq with h | h | h | h | h | h <;> subst h
    · rw [e0, u16_u32_of_lt _ (by omega)]
      omega
    · rw [e1, u16_u32_of_lt _ (by omega)]
      omega
    · rw [e2, u16_u32_of_lt _ (by omega)]
      omega
    · rw [e3, u16_u32_of_lt _ (by omega)]
      omega
    · rw [e4, u16_u32_of_lt _ (by omega)]
      omega
    · rw [e5, u16_u32_of_lt _ (by omega)]
      omega
  · rintro ⟨h1, h2⟩
    obtain ⟨q, hq⟩ : ∃ q, v - B = 4 * q ∨ v - B = 4 * q + 1 ∨ v - B = 4 * q + 2 ∨
        v - B = 4 * q + 3 := ⟨(v - B) / 4, by omega⟩
    obtain ⟨e0, e1, e2, e3, e4, e5⟩ := AddQuads_value_at B v1 v2 v3 v4 q
    rcases hq with h | h | h | h
    · refine ⟨6 * q, by omega, ?_⟩
      rw [e0, u16_u32_of_lt _ (by omega)]
      omega
    · rcases hv with ⟨a, b, c, d⟩ | ⟨a, b, c, d⟩
      · refine ⟨6 * q + 1, by omega, ?_⟩
        rw [e1, u16_u32_of_lt _ (by omega)]
        omega
      · refine ⟨6 * q + 2, by omega, ?_⟩
        rw [e2, u16_u32_of_lt _ (by omega)]
        omega
    · rcases hv with ⟨a, b, c, d⟩ | ⟨a, b, c, d⟩
      · refine ⟨6 * q + 2, by omega, ?_⟩
        rw [e2, u16_u32_of_lt _ (by omega)]
        omega
      · refine ⟨6 * q + 1, by omega, ?_⟩
        rw [e1, u16_u32_of_lt _ (by omega)]
        omega
    · rcases hv with ⟨a, b, c, d⟩ | ⟨a, b, c, d⟩
      · refine ⟨6 * q + 5, by omega, ?_⟩
        rw [e5, u16_u32_of_lt _ (by omega)]
        omega
      · refine ⟨6 * q + 4, by omega, ?_⟩
        rw [e4, u16_u32_of_lt _ (by omega)]
        omega

/-- C20: for every well-formed draw (Points with any `N`, LineList with `N` even, LineStrip
with `N ≥ 2`, TriangleList with `N` a multiple of 3, TriangleStrip and TriangleFan with
`N ≥ 3`, Quads and QuadsAlt with `N` a multiple of 4), every cull mode and every base index
`B` with `B + N ≤ 65536`, the expander returns (loop budget above `N`) and the set of values
among the indices it appended is exactly `{B, ..., B + N - 1}`: every appended index is a
vertex of the draw and every vertex of the draw is referenced. -/
theorem wellFormed_draw_references_its_vertices (primitive : Primitive) (fuel : Nat)
    (cullmode : CullMode) (mem : Mem) (index_ptr N B : Nat)
    (hwf : wellFormed primitive N = true) (hB : B + N ≤ 65536) (hfuel : N < fuel) :
    ∃ mem' : Mem,
      m_primitive_table primitive fuel cullmode mem index_ptr N B
        = some (mem', index_ptr + emitted primitive N) ∧
      ∀ v, (∃ d, d < emitted primitive N ∧ mem' (index_ptr + d) = v)
        ↔ (B ≤ v ∧ v < B + N) := by
  have hv2 : ((if ccw cullmode then 2 else 1) = 1 ∧ (if ccw cullmode then 1 else 2) = 2) ∨
      ((if ccw cullmode then 2 else 1) = 2 ∧ (if ccw cullmode then 1 else 2) = 1) := by
    by_cases hc : ccw cullmode = true <;> simp [hc]
  have hv4 : ((if ccw cullmode then 2 else 1) = 1 ∧ (if ccw cullmode then 1 else 2) = 2 ∧
        (if ccw cullmode then 3 else 2) = 2 ∧ (if ccw cullmode then 2 else 3) = 3) ∨
      ((if ccw cullmode then 2 else 1) = 2 ∧ (if ccw cullmode then 1 else 2) = 1 ∧
        (if ccw cullmode then 3 else 2) = 3 ∧ (if ccw cullmode then 2 else 3) = 2) := by
    by_cases hc : ccw cullmode = true <;> simp [hc]
  have hw : (if ccw cullmode then 2 else 1) = 1 ∨ (if ccw cullmode then 2 else 1) = 2 := by
    by_cases hc : ccw cullmode = true <;> simp [hc]
  cases primitive <;> simp only [wellFormed, decide_eq_true_eq] at hwf <;>
    simp only [emitted]
  · refine ⟨_, AddQuads_run fuel cullmode mem index_ptr N B (by omega) (by omega), ?_⟩
    intro v
    rw [fill_value_set]
    exact AddQuads_value_set B N _ _ _ _ hB hv4 hwf v
  · refine ⟨_, AddQuads_run fuel cullmode mem index_ptr N B (by omega) (by omega), ?_⟩
    intro v
    rw [fill_value_set]
    exact AddQuads_value_set B N _ _ _ _ hB hv4 hwf v
  · refine ⟨_, AddList_run fuel cullmode mem index_ptr N B (by omega) (by omega), ?_⟩
    intro v
    rw [fill_value_set]
    exact AddList_value_set B N _ _ hB hv2 hwf v
  · have hK : u32sub N 2 = N - 2 := u32sub_of_le N 2 (by omega) (by omega)
    refine ⟨_, AddStrip_run fuel cullmode mem index_ptr N B (by omega), ?_⟩
    intro v
    rw [fill_value_set]
    exact AddStrip_value_set B N _ hB hw hwf v
  · have hK : u32sub N 2 = N - 2 := u32sub_of_le N 2 (by omega) (by omega)
    refine ⟨_, AddFan_run fuel cullmode mem index_ptr N B _ rfl ?_, ?_⟩
    · rw [if_neg (by omega)]
      omega
    · intro v
      rw [fill_value_set]
      exact AddFan_value_set B N _ _ hB hv2 hwf v
  · refine ⟨_, AddLineList_run fuel mem index_ptr N B (by omega) (by omega), ?_⟩
    intro v
    rw [fill_value_set]
    exact AddLineList_value_set B N hB hwf v
  · have hK : u32sub N 1 = N - 1 := u32sub_of_le N 1 (by omega) (by omega)
    refine ⟨_, AddLineStrip_run fuel mem index_ptr N B (by omega), ?_⟩
    intro v
    rw [fill_value_set]
    exact AddLineStrip_value_set B N hB hwf v
  · refine ⟨_, AddPoints_run fuel mem index_ptr N B (by omega) hfuel, ?_⟩
    intro v
    rw [fill_value_set]
    exact AddPoints_value_set B N hB v

theorem wellFormed_draw_references_its_vertices_witness :
    wellFormed Primitive.GX_DRAW_TRIANGLE_FAN 5 = true ∧ 65531 + 5 ≤ 65536 ∧ 5 < 6 ∧
    ∃ mem' : Mem,
      m_primitive_table Primitive.GX_DRAW_TRIANGLE_FAN 6 CullMode.Front (fun _ => 0) 0 5 65531
        = some (mem', 0 + emitted Primitive.GX_DRAW_TRIANGLE_FAN 5) ∧
      ∀ v, (∃ d, d < emitted Primitive.GX_DRAW_TRIANGLE_FAN 5 ∧ mem' (0 + d) = v)
        ↔ (65531 ≤ v ∧ v < 65531 + 5) :=
  ⟨by decide, by decide, by decide,
    wellFormed_draw_references_its_vertices Primitive.GX_DRAW_TRIANGLE_FAN 6 CullMode.Front
      (fun _ => 0) 0 5 65531 (by decide) (by decide) (by decide)⟩
